import Mathlib

/-!
Verification of the agenda-based MCFG parser.

This file shallowly embeds the repository's data model and algorithms
(`grammar.py`, `tree.py`, `parser.py`) as executable Lean definitions and
proves or refutes the specification's claims about them.

Modelling conventions:
* Python tuples of string-variable indices become `List SV`, where an `SV`
  is either an integer index (`SV.idx`) or a literal terminal string
  (`SV.lit`, used by epsilon rules).
* A span is a pair of token positions.
* Python exceptions become an `Except PyErr` result; the parser catches
  `ValueError` (span mismatches) but lets `KeyError`/`IndexError` escape,
  exactly as in the source.
* Python's `dict` comprehension in `_build_span_map` is modelled by an
  association list with last-binding-wins lookup, and Python `set`s of
  rules/entries are modelled as lists in a fixed iteration order.
-/

namespace MCFG

/-- A Python exception kind distinguished by the parser's error handling. -/
inductive PyErr where
  | valueError
  | keyError
  | indexError
deriving DecidableEq

deriving instance DecidableEq for Except

/-- A string variable occurring in a rule: an index, or (for epsilon rules)
a literal terminal symbol. -/
inductive SV where
  | idx (n : Nat)
  | lit (s : String)
deriving DecidableEq

/-- A half-open span of token positions. -/
abbrev Span := Nat × Nat

/-- Embeds `MCFGRuleElement`: a nonterminal with grouped string variables. -/
structure MCFGRuleElement where
  var : String
  string_variables : List (List SV)
deriving DecidableEq

/-- Embeds `MCFGRuleElement.unique_string_variables` (membership view of the
Python set). -/
def MCFGRuleElement.uniqueStringVariables (e : MCFGRuleElement) : List SV :=
  e.string_variables.flatten

/-- Embeds `MCFGRuleElementInstance`: a nonterminal with concrete spans. -/
structure MCFGRuleElementInstance where
  var : String
  string_spans : List Span
deriving DecidableEq

/-- Embeds `MCFGRule`: a left side and zero or more right-side elements. -/
structure MCFGRule where
  left_side : MCFGRuleElement
  right_side : List MCFGRuleElement
deriving DecidableEq

/-- Embeds `MCFGRule.is_epsilon`. -/
def MCFGRule.is_epsilon (r : MCFGRule) : Bool := r.right_side.isEmpty

/-- Whether two string-variable lists intersect (Python `set.intersection`
viewed as a Boolean). -/
def svInter (xs ys : List SV) : Bool := xs.any (fun x => ys.contains x)

/-- Pairwise-sharing test over the right side, as in `MCFGRule._validate`:
`any(vs1 & vs2 for i < j)`. -/
def pairwiseSharing : List (List SV) → Bool
  | [] => false
  | v :: rest => rest.any (fun w => svInter v w) || pairwiseSharing rest

/-- Set equality of string-variable collections (Python `set` equality). -/
def svSetEq (xs ys : List SV) : Bool :=
  xs.all (fun x => ys.contains x) && ys.all (fun y => xs.contains y)

/-- Embeds `MCFGRule._validate`: `true` when construction succeeds, `false`
when it raises `ValueError`. -/
def MCFGRule.validate (r : MCFGRule) : Bool :=
  !(pairwiseSharing (r.right_side.map (·.uniqueStringVariables))) &&
  (r.is_epsilon ||
    svSetEq r.left_side.uniqueStringVariables
      (r.right_side.flatMap (·.uniqueStringVariables)))

/-- Last-binding-wins lookup, matching a Python dict built by a comprehension
where later pairs overwrite earlier ones. -/
def lookupLast (m : List (SV × Span)) (k : SV) : Option Span :=
  match m with
  | [] => none
  | p :: rest =>
    match lookupLast rest k with
    | some s => some s
    | none => if p.1 = k then some p.2 else none

/-- Dict lookup raising `KeyError` on a missing key, as `span_map[v]` does. -/
def lookupE (m : List (SV × Span)) (k : SV) : Except PyErr Span :=
  match lookupLast m k with
  | some s => .ok s
  | none => .error .keyError

/-- Builds `{strvar[0]: strspan}` pairs; an empty group makes `strvar[0]`
raise `IndexError`. -/
def headKeyPairs : List (List SV × Span) → Except PyErr (List (SV × Span))
  | [] => .ok []
  | (g, s) :: rest =>
    match g with
    | [] => .error .indexError
    | k :: _ => do
      let r ← headKeyPairs rest
      pure ((k, s) :: r)

/-- Embeds `MCFGRule._right_side_aligns`. -/
def MCFGRule.right_side_aligns (r : MCFGRule)
    (right : List MCFGRuleElementInstance) : Bool :=
  right.length = r.right_side.length &&
  (r.right_side.zip right).all (fun p => p.1.var = p.2.var) &&
  (r.right_side.zip right).all
    (fun p => p.1.string_variables.length = p.2.string_spans.length)

/-- Embeds `MCFGRule._build_span_map`. -/
def MCFGRule.build_span_map (r : MCFGRule)
    (right : List MCFGRuleElementInstance) :
    Except PyErr (List (SV × Span)) :=
  if r.right_side_aligns right then
    headKeyPairs
      ((r.right_side.zip right).flatMap
        (fun p => p.1.string_variables.zip p.2.string_spans))
  else .error .valueError

/-- Embeds the adjacency loop `for i in range(1, len(vs))` of
`instantiate_left_side`. -/
def adjacencyChain (m : List (SV × Span)) : SV → List SV → Except PyErr Unit
  | _, [] => .ok ()
  | prev, k :: rest => do
    let sp ← lookupE m prev
    let sc ← lookupE m k
    if sp.2 = sc.1 then adjacencyChain m k rest else .error .valueError

/-- Embeds the per-group span computation of `instantiate_left_side`:
adjacency checks, then `(span of first variable begin, span of last variable
end)`; an empty group raises `IndexError` at `vs[0]`. -/
def groupSpan (m : List (SV × Span)) (vs : List SV) : Except PyErr Span :=
  match vs with
  | [] => .error .indexError
  | k :: rest => do
    adjacencyChain m k rest
    let s0 ← lookupE m k
    let s1 ← lookupE m (rest.getLastD k)
    pure (s0.1, s1.2)

/-- Heads of the left-side groups, `tuple(v[0] for v in string_variables)`
in the epsilon branch. -/
def groupHeads : List (List SV) → Except PyErr (List SV)
  | [] => .ok []
  | g :: rest =>
    match g with
    | [] => .error .indexError
    | k :: _ => do
      let r ← groupHeads rest
      pure (k :: r)

/-- Sequentially computes one span per left-side argument group, stopping
at the first failure (the Python `for vs in ...` loop). -/
def mapGroupSpans (m : List (SV × Span)) :
    List (List SV) → Except PyErr (List Span)
  | [] => .ok []
  | g :: gs => do
    let s ← groupSpan m g
    let rest ← mapGroupSpans m gs
    pure (s :: rest)

/-- The span-map path of `instantiate_left_side`: build the span map, then
compute one span per left-side group. -/
def instantiateSpanPath (r : MCFGRule)
    (right : List MCFGRuleElementInstance) :
    Except PyErr MCFGRuleElementInstance :=
  match r.build_span_map right with
  | .error e => .error e
  | .ok m =>
    match mapGroupSpans m r.left_side.string_variables with
    | .error e => .error e
    | .ok new_spans => .ok ⟨r.left_side.var, new_spans⟩

/-- Embeds `MCFGRule.instantiate_left_side`: the epsilon branch returns the
children's spans directly on a terminal match and otherwise falls through
to the span-map path. -/
def MCFGRule.instantiate_left_side (r : MCFGRule)
    (right : List MCFGRuleElementInstance) :
    Except PyErr MCFGRuleElementInstance :=
  if r.is_epsilon then
    match groupHeads r.left_side.string_variables with
    | .error e => .error e
    | .ok strvars =>
      if right.map (fun i => SV.lit i.var) = strvars then
        .ok ⟨r.left_side.var, right.flatMap (·.string_spans)⟩
      else instantiateSpanPath r right
  else instantiateSpanPath r right

/-- Embeds `MCFGGrammar` with its construction-time validation. -/
structure MCFGGrammar where
  alphabet : List String
  vars : List String
  rules : List MCFGRule
  start_variable : String

/-- Embeds `MCFGGrammar._validate_variables` and `_validate_rules`:
`true` when construction succeeds. -/
def MCFGGrammar.validate (g : MCFGGrammar) : Bool :=
  !(g.alphabet.any (fun a => g.vars.contains a)) &&
  g.vars.contains g.start_variable &&
  g.rules.all (·.validate)

/-- Embeds the `Tree` class of `tree.py`: a label with ordered children. -/
inductive Tree where
  | node (data : String) (children : List Tree)

mutual

/-- Structural Boolean equality on trees, mirroring `Tree.__eq__` via
`to_tuple`. -/
def Tree.beq : Tree → Tree → Bool
  | .node a cs, .node b ds => a = b && Tree.beqList cs ds

/-- Pointwise Boolean equality on child lists. -/
def Tree.beqList : List Tree → List Tree → Bool
  | [], [] => true
  | t :: ts, u :: us => Tree.beq t u && Tree.beqList ts us
  | _, _ => false

end

mutual

theorem Tree.beq_iff : ∀ a b : Tree, Tree.beq a b = true ↔ a = b
  | .node a cs, .node b ds => by
    simp only [Tree.beq, Bool.and_eq_true, decide_eq_true_eq, Tree.node.injEq]
    exact and_congr Iff.rfl (Tree.beqList_iff cs ds)

theorem Tree.beqList_iff : ∀ as bs : List Tree, Tree.beqList as bs = true ↔ as = bs
  | [], [] => by simp [Tree.beqList]
  | [], _ :: _ => by simp [Tree.beqList]
  | _ :: _, [] => by simp [Tree.beqList]
  | t :: ts, u :: us => by
    simp only [Tree.beqList, Bool.and_eq_true, List.cons.injEq]
    exact and_congr (Tree.beq_iff t u) (Tree.beqList_iff ts us)

end

instance : DecidableEq Tree := fun a b =>
  decidable_of_iff (Tree.beq a b = true) (Tree.beq_iff a b)

mutual

/-- Embeds `Tree.terminals`: leaf labels in pre-order. -/
def Tree.terminals : Tree → List String
  | .node d [] => [d]
  | .node _ (c :: cs) => Tree.terminalsList (c :: cs)

/-- Concatenation of `terminals` over a list of trees. -/
def Tree.terminalsList : List Tree → List String
  | [] => []
  | t :: ts => Tree.terminals t ++ Tree.terminalsList ts

end

/-- Embeds `MCFGChartEntry`: an instance, the producing rule, and
backpointers to child entries. -/
inductive MCFGChartEntry where
  | mk (inst : MCFGRuleElementInstance) (rule : Option MCFGRule)
      (backpointers : List MCFGChartEntry)

/-- The instance of a chart entry. -/
def MCFGChartEntry.inst : MCFGChartEntry → MCFGRuleElementInstance
  | .mk i _ _ => i

/-- Embeds `MCFGChartEntry.symbol`. -/
def MCFGChartEntry.symbol (e : MCFGChartEntry) : String := e.inst.var

/-- Embeds `MCFGChartEntry.spans`. -/
def MCFGChartEntry.spans (e : MCFGChartEntry) : List Span :=
  e.inst.string_spans

mutual

/-- Structural Boolean equality on chart entries. -/
def MCFGChartEntry.beq : MCFGChartEntry → MCFGChartEntry → Bool
  | .mk i r bs, .mk j q cs =>
    decide (i = j) && decide (r = q) && MCFGChartEntry.beqList bs cs

/-- Pointwise Boolean equality on entry lists. -/
def MCFGChartEntry.beqList : List MCFGChartEntry → List MCFGChartEntry → Bool
  | [], [] => true
  | e :: es, f :: fs =>
    MCFGChartEntry.beq e f && MCFGChartEntry.beqList es fs
  | _, _ => false

end

mutual

theorem entryBeq_iff :
    ∀ a b : MCFGChartEntry, MCFGChartEntry.beq a b = true ↔ a = b
  | .mk i r bs, .mk j q cs => by
    simp only [MCFGChartEntry.beq, Bool.and_eq_true, decide_eq_true_eq,
      MCFGChartEntry.mk.injEq]
    rw [and_assoc]
    exact and_congr Iff.rfl
      (and_congr Iff.rfl (entryBeqList_iff bs cs))

theorem entryBeqList_iff :
    ∀ as bs : List MCFGChartEntry,
      MCFGChartEntry.beqList as bs = true ↔ as = bs
  | [], [] => by simp [MCFGChartEntry.beqList]
  | [], _ :: _ => by simp [MCFGChartEntry.beqList]
  | _ :: _, [] => by simp [MCFGChartEntry.beqList]
  | e :: es, f :: fs => by
    simp only [MCFGChartEntry.beqList, Bool.and_eq_true, List.cons.injEq]
    exact and_congr (entryBeq_iff e f)
      (entryBeqList_iff es fs)

end

instance : DecidableEq MCFGChartEntry := fun a b =>
  decidable_of_iff (MCFGChartEntry.beq a b = true) (entryBeq_iff a b)

mutual

/-- Embeds `MCFGChartEntry.to_tree`. -/
def MCFGChartEntry.to_tree : MCFGChartEntry → Tree
  | .mk i _ bps => .node i.var (MCFGChartEntry.toTreeList bps)

/-- Maps `to_tree` over backpointers. -/
def MCFGChartEntry.toTreeList : List MCFGChartEntry → List Tree
  | [] => []
  | e :: es => MCFGChartEntry.to_tree e :: MCFGChartEntry.toTreeList es

end

/-- The chart: one entry per committed `(nonterminal, span-tuple)` key, in
key-insertion order.  This models the Python `dict` keyed by
`(symbol, spans)` whose per-key `set` holds at most one entry, since
`MCFGChartEntry.__eq__` identifies all entries with equal instances. -/
abbrev Chart := List MCFGChartEntry

/-- Embeds `MCFGChart._key`. -/
def chartKey (e : MCFGChartEntry) : String × List Span := (e.symbol, e.spans)

/-- Embeds `MCFGChart.add`: a no-op when the key is already present, keeping
the first-committed entry. -/
def chartAdd (c : Chart) (e : MCFGChartEntry) : Chart :=
  if c.any (fun x => decide (chartKey x = chartKey e)) then c else c ++ [e]

/-- Embeds `MCFGChart.get_by_symbol`. -/
def getBySymbol (c : Chart) (s : String) : List MCFGChartEntry :=
  c.filter (fun e => decide (e.symbol = s))

/-- First-occurrence deduplication with an accumulator of already-kept
trees. -/
def dedupSeen (seen : List Tree) : List Tree → List Tree
  | [] => []
  | t :: ts =>
    if seen.any (fun u => decide (u = t)) then dedupSeen seen ts
    else t :: dedupSeen (t :: seen) ts

/-- First-occurrence deduplication of a tree list (Python `set` semantics of
`MCFGChart.parses`). -/
def dedupTrees (l : List Tree) : List Tree := dedupSeen [] l

/-- Embeds `MCFGChart.parses`: trees of every committed fact whose symbol is
the literal string that the source filters on. -/
def chartParses (c : Chart) : List Tree :=
  dedupTrees ((c.filter (fun e => decide (e.symbol = "S"))).map
    MCFGChartEntry.to_tree)

/-- The mutable state of one `parse` call: the chart and the FIFO agenda. -/
structure ParserState where
  chart : Chart
  agenda : List MCFGChartEntry

/-- Embeds the inner rule loop of `_initialize_agenda` for one token
position. -/
def seedToken (i : Nat) (token : String) :
    List MCFGRule → ParserState → Except PyErr ParserState
  | [], st => .ok st
  | r :: rest, st =>
    if r.is_epsilon then do
      let terminal ←
        match r.left_side.string_variables with
        | [] => Except.error PyErr.indexError
        | g :: _ =>
          match g with
          | [] => Except.error PyErr.indexError
          | k :: _ => Except.ok k
      if terminal = SV.lit token then do
        let instT : MCFGRuleElementInstance := ⟨token, [(i, i + 1)]⟩
        let lhs ← r.instantiate_left_side [instT]
        let entry := MCFGChartEntry.mk lhs (some r)
          [MCFGChartEntry.mk instT none []]
        seedToken i token rest
          ⟨chartAdd st.chart entry, st.agenda ++ [entry]⟩
      else seedToken i token rest st
    else seedToken i token rest st

/-- Embeds `_initialize_agenda`: iterates `enumerate(tokens)`. -/
def seedTokens (rules : List MCFGRule) :
    Nat → List String → ParserState → Except PyErr ParserState
  | _, [], st => .ok st
  | i, t :: ts, st => do
    let st1 ← seedToken i t rules st
    seedTokens rules (i + 1) ts st1

/-- The first candidate loop of `_infer` for one rule: the trigger matches
the first right-side element, the partner the second; `ValueError`s are
swallowed, other errors escape. -/
def pairLoopB (r : MCFGRule) (trigger : MCFGChartEntry) :
    List MCFGChartEntry → Except PyErr (List MCFGChartEntry)
  | [] => .ok []
  | p :: rest => do
    let hd ←
      match r.instantiate_left_side [trigger.inst, p.inst] with
      | .ok i => Except.ok [MCFGChartEntry.mk i (some r) [trigger, p]]
      | .error .valueError => Except.ok []
      | .error e => Except.error e
    let tl ← pairLoopB r trigger rest
    .ok (hd ++ tl)

/-- The second candidate loop of `_infer` for one rule: the partner comes
first, the trigger second. -/
def pairLoopC (r : MCFGRule) (trigger : MCFGChartEntry) :
    List MCFGChartEntry → Except PyErr (List MCFGChartEntry)
  | [] => .ok []
  | p :: rest => do
    let hd ←
      match r.instantiate_left_side [p.inst, trigger.inst] with
      | .ok i => Except.ok [MCFGChartEntry.mk i (some r) [p, trigger]]
      | .error .valueError => Except.ok []
      | .error e => Except.error e
    let tl ← pairLoopC r trigger rest
    .ok (hd ++ tl)

/-- Embeds the body of `_infer` for a single rule: fires only when the rule
has exactly two right-side elements. -/
def inferRule (chart : Chart) (trigger : MCFGChartEntry) (r : MCFGRule) :
    Except PyErr (List MCFGChartEntry) :=
  match r.right_side with
  | [b, c] => do
    let fromB ←
      if trigger.symbol = b.var then
        pairLoopB r trigger (getBySymbol chart c.var)
      else .ok []
    let fromC ←
      if trigger.symbol = c.var then
        pairLoopC r trigger (getBySymbol chart b.var)
      else .ok []
    .ok (fromB ++ fromC)
  | _ => .ok []

/-- Embeds `_infer`: folds `inferRule` over the grammar's rules. -/
def infer (rules : List MCFGRule) (chart : Chart)
    (trigger : MCFGChartEntry) : Except PyErr (List MCFGChartEntry) :=
  match rules with
  | [] => .ok []
  | r :: rest => do
    let h ← inferRule chart trigger r
    let t ← infer rest chart trigger
    .ok (h ++ t)

/-- One iteration of the `while self.agenda` loop is folded `fuel` times:
pop the trigger, commit it, infer, extend the agenda.  Stops early when the
agenda is empty.  The Python loop has no fuel; `runSteps` merely truncates
runs, and exhausting every fuel corresponds to divergence. -/
def runSteps (rules : List MCFGRule) :
    Nat → ParserState → Except PyErr ParserState
  | 0, st => .ok st
  | n + 1, st =>
    match st.agenda with
    | [] => .ok st
    | t :: rest => do
      let chart1 := chartAdd st.chart t
      let cons ← infer rules chart1 t
      runSteps rules n ⟨chart1, rest ++ cons⟩

/-- Embeds `AgendaBasedMCFGParser.parse`, starting from the chart left over
from earlier calls (`chart0`; a fresh parser has `chart0 = []`).  Returns
`some (trees, chart)` when the loop finishes within `fuel` iterations,
`none` when fuel runs out, and an error when Python would raise. -/
def parseWith (g : MCFGGrammar) (chart0 : Chart) (tokens : List String)
    (fuel : Nat) : Except PyErr (Option (List Tree × Chart)) := do
  let st0 ← seedTokens g.rules 0 tokens ⟨chart0, []⟩
  let stF ← runSteps g.rules fuel st0
  if stF.agenda.isEmpty then
    .ok (some (chartParses stF.chart, stF.chart))
  else .ok none

/-- The rule recorded on a chart entry. -/
def MCFGChartEntry.rule : MCFGChartEntry → Option MCFGRule
  | .mk _ r _ => r

/-- An observable event of a parse run: committing a fact key to the chart,
or pushing a fact key onto the agenda. -/
inductive Ev where
  | commit (k : String × List Span)
  | push (k : String × List Span)
deriving DecidableEq

/-- Event trace of the agenda loop, derived by single-stepping the very same
`chartAdd`/`infer` used by `runSteps`: each iteration commits the popped
trigger's key and then pushes each consequence's key. -/
def traceSteps (rules : List MCFGRule) : Nat → ParserState → List Ev
  | 0, _ => []
  | n + 1, st =>
    match st.agenda with
    | [] => []
    | t :: rest =>
      match infer rules (chartAdd st.chart t) t with
      | .error _ => [Ev.commit (chartKey t)]
      | .ok cons =>
        Ev.commit (chartKey t) ::
          (cons.map (fun e => Ev.push (chartKey e)) ++
            traceSteps rules n ⟨chartAdd st.chart t, rest ++ cons⟩)

/-- Event trace of a whole fresh `parse` call: seeding pushes and commits
each seed entry in order (`_initialize_agenda` appends to the agenda and
adds to the chart), then the loop runs. -/
def parseEvents (g : MCFGGrammar) (tokens : List String) (fuel : Nat) :
    List Ev :=
  match seedTokens g.rules 0 tokens ⟨[], []⟩ with
  | .error _ => []
  | .ok st0 =>
    st0.agenda.flatMap
      (fun e => [Ev.push (chartKey e), Ev.commit (chartKey e)]) ++
      traceSteps g.rules fuel st0

/-- Scans an event list for a push of a key that was committed strictly
earlier. -/
def lateEnqueue (committed : List (String × List Span)) : List Ev → Bool
  | [] => false
  | Ev.commit k :: rest => lateEnqueue (k :: committed) rest
  | Ev.push k :: rest =>
    committed.any (fun x => decide (x = k)) || lateEnqueue committed rest

/-- Builds a rule element whose groups hold integer indices. -/
def elem (v : String) (gs : List (List Nat)) : MCFGRuleElement :=
  ⟨v, gs.map (fun g => g.map SV.idx)⟩

/-- Builds an epsilon rule `v(t)`. -/
def epsRule (v t : String) : MCFGRule := ⟨⟨v, [[SV.lit t]]⟩, []⟩

/-- Any entry whose key is already present leaves `chartAdd` unchanged. -/
theorem chartAdd_of_key_mem (c : Chart) (e1 e2 : MCFGChartEntry)
    (h1 : e1 ∈ c) (hk : chartKey e1 = chartKey e2) : chartAdd c e2 = c := by
  unfold chartAdd
  rw [if_pos]
  exact List.any_eq_true.mpr ⟨e1, h1, by rw [hk]; exact decide_eq_true rfl⟩

/-- C10: parsing the empty token sequence with a fresh parser returns the
empty set of trees (and the empty chart) without raising, for every grammar
and every fuel bound: seeding adds nothing and the loop exits at once. -/
theorem parse_empty_tokens (g : MCFGGrammar) (fuel : Nat) :
    parseWith g [] [] fuel = .ok (some ([], [])) := by
  cases fuel <;>
    · unfold parseWith
      simp [seedTokens, runSteps, chartParses, dedupTrees, dedupSeen,
        Bind.bind, Except.bind]

/-- C7: adding a second entry with the key of an already-stored entry --
here with a different rule and different backpointers -- leaves the chart
unchanged, so the first-committed entry is retained. -/
theorem chart_first_committed_wins (c : Chart) (e1 e2 : MCFGChartEntry)
    (h1 : e1 ∈ c) (hk : chartKey e1 = chartKey e2) :
    chartAdd c e2 = c ∧ e1 ∈ chartAdd c e2 := by
  refine ⟨chartAdd_of_key_mem c e1 e2 h1 hk, ?_⟩
  rw [chartAdd_of_key_mem c e1 e2 h1 hk]
  exact h1

/-- Witness for C7 at a concrete chart: the second entry has the same
instance but a different rule and different backpointers, and the add is a
no-op keeping the original entry. -/
theorem chart_first_committed_wins_witness :
    (MCFGChartEntry.mk ⟨"S", [(0, 2)]⟩ none []) ∈
      ([MCFGChartEntry.mk ⟨"S", [(0, 2)]⟩ none []] : Chart) ∧
    chartAdd [MCFGChartEntry.mk ⟨"S", [(0, 2)]⟩ none []]
      (MCFGChartEntry.mk ⟨"S", [(0, 2)]⟩ (some (epsRule "S" "x"))
        [MCFGChartEntry.mk ⟨"A", [(0, 1)]⟩ none []]) =
      [MCFGChartEntry.mk ⟨"S", [(0, 2)]⟩ none []] ∧
    (MCFGChartEntry.mk ⟨"S", [(0, 2)]⟩ none []) ∈
      chartAdd [MCFGChartEntry.mk ⟨"S", [(0, 2)]⟩ none []]
      (MCFGChartEntry.mk ⟨"S", [(0, 2)]⟩ (some (epsRule "S" "x"))
        [MCFGChartEntry.mk ⟨"A", [(0, 1)]⟩ none []]) := by
  have h := chart_first_committed_wins
    [MCFGChartEntry.mk ⟨"S", [(0, 2)]⟩ none []]
    (MCFGChartEntry.mk ⟨"S", [(0, 2)]⟩ none [])
    (MCFGChartEntry.mk ⟨"S", [(0, 2)]⟩ (some (epsRule "S" "x"))
      [MCFGChartEntry.mk ⟨"A", [(0, 1)]⟩ none []])
    (List.mem_singleton.mpr rfl) rfl
  exact ⟨List.mem_singleton.mpr rfl, h.1, h.2⟩

/-- The tree list returned by a `parse` call that completes without raising;
`none` when the call raises or exceeds the fuel. -/
def parseTrees (g : MCFGGrammar) (chart0 : Chart) (tokens : List String)
    (fuel : Nat) : Option (List Tree) :=
  match parseWith g chart0 tokens fuel with
  | .ok (some (ts, _)) => some ts
  | _ => none

/-- The chart left in the parser after a completed `parse` call. -/
def parseChart (g : MCFGGrammar) (chart0 : Chart) (tokens : List String)
    (fuel : Nat) : Option Chart :=
  match parseWith g chart0 tokens fuel with
  | .ok (some (_, ch)) => some ch
  | _ => none

/-- Keys of a chart in commit order. -/
def chartKeys (c : Chart) : List (String × List Span) := c.map chartKey

/-- Fixture: the binary grammar `S(uv) -> A(u) B(v); A(a); B(b)` with start
variable `S`. -/
def gS : MCFGGrammar :=
  ⟨["a", "b"], ["S", "A", "B"],
   [epsRule "A" "a", epsRule "B" "b",
    ⟨elem "S" [[0, 1]], [elem "A" [[0]], elem "B" [[1]]]⟩], "S"⟩

/-- Fixture: the same grammar with every `S` renamed to `T`, so the start
variable is `T`. -/
def gT : MCFGGrammar :=
  ⟨["a", "b"], ["T", "A", "B"],
   [epsRule "A" "a", epsRule "B" "b",
    ⟨elem "T" [[0, 1]], [elem "A" [[0]], elem "B" [[1]]]⟩], "T"⟩

/-- The unique derivation tree of `gS` on tokens `[a, b]`. -/
def tSab : Tree :=
  .node "S" [.node "A" [.node "a" []], .node "B" [.node "b" []]]

/-- C2: the chart's `parses` filters on the literal nonterminal string `S`,
not on the grammar's start variable.  On the valid grammar `gT`, whose start
variable is `T`, the parse commits the start-symbol fact `T` over the whole
input yet returns no trees. -/
theorem parses_ignore_start_variable :
    gT.validate = true ∧ gT.start_variable = "T" ∧
    parseTrees gT [] ["a", "b"] 30 = some [] ∧
    (parseChart gT [] ["a", "b"] 30).map chartKeys =
      some [("A", [(0, 1)]), ("B", [(1, 2)]), ("T", [(0, 2)])] := by
  refine ⟨by decide, rfl, by decide, by decide⟩

/-- C6: parser state persists between `parse` calls.  After parsing
`[a, b]` with `gS`, a second call on the same parser with the empty token
sequence still returns the tree of the first call, whereas a fresh parser
on the empty sequence returns no trees. -/
theorem parser_state_persists :
    gS.validate = true ∧
    parseTrees gS [] ["a", "b"] 30 = some [tSab] ∧
    parseTrees gS ((parseChart gS [] ["a", "b"] 30).getD []) [] 5 =
      some [tSab] ∧
    parseTrees gS [] [] 5 = some [] ∧
    parseTrees gS ((parseChart gS [] ["a", "b"] 30).getD []) [] 5 ≠
      parseTrees gS [] [] 5 := by
  refine ⟨by decide, by decide, by decide, by decide, by decide⟩

/-- Fixture: a grammar accepted by every construction-time validation whose
rule `S(uu1) -> X(u, u) P(u1)` repeats the string variable of `X` inside one
right-side element, so the span map silently drops one of `X`'s spans. -/
def gBad : MCFGGrammar :=
  ⟨["a", "b"], ["S", "X", "A", "B", "P"],
   [epsRule "A" "a", epsRule "B" "b", epsRule "P" "b",
    ⟨elem "X" [[0, 1], [0]], [elem "A" [[0]], elem "B" [[1]]]⟩,
    ⟨elem "S" [[0, 1]], [elem "X" [[0], [0]], elem "P" [[1]]]⟩], "S"⟩

/-- The single tree that `gBad` produces on tokens `[a, b]`. -/
def tBad : Tree :=
  .node "S" [.node "X" [.node "A" [.node "a" []], .node "B" [.node "b" []]],
    .node "P" [.node "b" []]]

/-- C1 counterexample: on the valid grammar `gBad` and tokens `[a, b]`,
`parse` returns a tree whose underlying start-symbol fact spans the whole
input `(0, 2)` and whose terminals are `[a, b, b]`, not the input
`[a, b]`. -/
theorem parse_tree_terminals_mismatch :
    gBad.validate = true ∧
    parseTrees gBad [] ["a", "b"] 40 = some [tBad] ∧
    (parseChart gBad [] ["a", "b"] 40).map chartKeys =
      some [("A", [(0, 1)]), ("B", [(1, 2)]), ("P", [(1, 2)]),
        ("X", [(0, 2), (0, 1)]), ("S", [(0, 2)])] ∧
    tBad.terminals = ["a", "b", "b"] ∧
    tBad.terminals ≠ ["a", "b"] := by
  refine ⟨by decide, by decide, by decide, by decide, by decide⟩

/-- Fixture: the rule `S(u u1 u2) -> B(u u1) C(u2)` whose right-side element
`B` has a two-variable argument group: only the group's first index is ever
entered into the span map. -/
def rC5 : MCFGRule :=
  ⟨elem "S" [[0, 1, 2]],
   [⟨"B", [[SV.idx 0, SV.idx 1]]⟩, elem "C" [[2]]]⟩

/-- C5 counterexample: `rC5` passes rule validation, and the children align
with its right side, yet `instantiate_left_side` fails with a `KeyError` --
index `1` is used on the left side but missing from the span map -- rather
than with the adjacency `ValueError`. -/
theorem span_map_missing_index :
    rC5.validate = true ∧ rC5.is_epsilon = false ∧
    rC5.right_side_aligns [⟨"B", [(5, 7)]⟩, ⟨"C", [(7, 9)]⟩] = true ∧
    rC5.build_span_map [⟨"B", [(5, 7)]⟩, ⟨"C", [(7, 9)]⟩] =
      .ok [(SV.idx 0, (5, 7)), (SV.idx 2, (7, 9))] ∧
    lookupLast [(SV.idx 0, (5, 7)), (SV.idx 2, (7, 9))] (SV.idx 1) = none ∧
    rC5.instantiate_left_side [⟨"B", [(5, 7)]⟩, ⟨"C", [(7, 9)]⟩] =
      .error .keyError := by
  refine ⟨by decide, rfl, by decide, by decide, rfl, by decide⟩

/-- Fixture: a plain context-free-style grammar in which the fact
`S: (0, 4)` is derivable both as `P + Q` (discovered at agenda depth two)
and as `A + R` (discovered at depth three, after `S: (0, 4)` has already
been committed). -/
def g3 : MCFGGrammar :=
  ⟨["a", "b", "c", "d"], ["S", "A", "B", "C", "D", "P", "Q", "R"],
   [epsRule "A" "a", epsRule "B" "b", epsRule "C" "c", epsRule "D" "d",
    ⟨elem "P" [[0, 1]], [elem "A" [[0]], elem "B" [[1]]]⟩,
    ⟨elem "Q" [[0, 1]], [elem "C" [[0]], elem "D" [[1]]]⟩,
    ⟨elem "S" [[0, 1]], [elem "P" [[0]], elem "Q" [[1]]]⟩,
    ⟨elem "R" [[0, 1]], [elem "B" [[0]], elem "Q" [[1]]]⟩,
    ⟨elem "S" [[0, 1]], [elem "A" [[0]], elem "R" [[1]]]⟩], "S"⟩

/-- C3: on the valid grammar `g3` and tokens `[a, b, c, d]`, the event
trace of the parse contains a push of a fact key strictly after a commit of
that same key: the inference step enqueues consequences without checking
the chart, so already-committed facts are re-enqueued. -/
theorem committed_fact_reenqueued :
    g3.validate = true ∧
    lateEnqueue [] (parseEvents g3 ["a", "b", "c", "d"] 60) = true ∧
    (parseEvents g3 ["a", "b", "c", "d"] 60).count
      (Ev.commit ("S", [(0, 4)])) > 0 ∧
    (parseEvents g3 ["a", "b", "c", "d"] 60).count
      (Ev.push ("S", [(0, 4)])) = 4 := by
  refine ⟨by decide, by decide, by decide, by decide⟩

/-- Inversion for `pairLoopB`: every produced entry comes from a partner in
the candidate list via a successful instantiation, with the trigger first. -/
theorem pairLoopB_ok (r : MCFGRule) (trigger : MCFGChartEntry) :
    ∀ ps out, pairLoopB r trigger ps = .ok out →
      ∀ e ∈ out, ∃ p ∈ ps, ∃ i,
        r.instantiate_left_side [trigger.inst, p.inst] = .ok i ∧
        e = MCFGChartEntry.mk i (some r) [trigger, p] := by
  intro ps
  induction ps with
  | nil =>
    intro out h e he
    rw [pairLoopB] at h
    cases h
    simp at he
  | cons p rest ih =>
    intro out h e he
    rw [pairLoopB] at h
    simp only [Bind.bind, Except.bind] at h
    rcases hinst : r.instantiate_left_side [trigger.inst, p.inst]
        with err | i
    · simp only [hinst] at h
      cases err
      · rcases htl : pairLoopB r trigger rest with err2 | tl
        · simp only [htl] at h
          cases h
        · simp only [htl, List.nil_append] at h
          cases h
          rcases ih _ htl e he with ⟨q, hq, j, hj, rfl⟩
          exact ⟨q, List.mem_cons_of_mem p hq, j, hj, rfl⟩
      · exact absurd h (by simp)
      · exact absurd h (by simp)
    · simp only [hinst] at h
      rcases htl : pairLoopB r trigger rest with err2 | tl
      · simp only [htl] at h
        cases h
      · simp only [htl] at h
        cases h
        rcases List.mem_append.mp he with hm | hm
        · rcases List.mem_singleton.mp hm with rfl
          exact ⟨p, List.mem_cons_self p rest, i, hinst, rfl⟩
        · rcases ih _ htl e hm with ⟨q, hq, j, hj, rfl⟩
          exact ⟨q, List.mem_cons_of_mem p hq, j, hj, rfl⟩

/-- Inversion for `pairLoopC`: as for `pairLoopB`, with the partner first. -/
theorem pairLoopC_ok (r : MCFGRule) (trigger : MCFGChartEntry) :
    ∀ ps out, pairLoopC r trigger ps = .ok out →
      ∀ e ∈ out, ∃ p ∈ ps, ∃ i,
        r.instantiate_left_side [p.inst, trigger.inst] = .ok i ∧
        e = MCFGChartEntry.mk i (some r) [p, trigger] := by
  intro ps
  induction ps with
  | nil =>
    intro out h e he
    rw [pairLoopC] at h
    cases h
    simp at he
  | cons p rest ih =>
    intro out h e he
    rw [pairLoopC] at h
    simp only [Bind.bind, Except.bind] at h
    rcases hinst : r.instantiate_left_side [p.inst, trigger.inst]
        with err | i
    · simp only [hinst] at h
      cases err
      · rcases htl : pairLoopC r trigger rest with err2 | tl
        · simp only [htl] at h
          cases h
        · simp only [htl, List.nil_append] at h
          cases h
          rcases ih _ htl e he with ⟨q, hq, j, hj, rfl⟩
          exact ⟨q, List.mem_cons_of_mem p hq, j, hj, rfl⟩
      · exact absurd h (by simp)
      · exact absurd h (by simp)
    · simp only [hinst] at h
      rcases htl : pairLoopC r trigger rest with err2 | tl
      · simp only [htl] at h
        cases h
      · simp only [htl] at h
        cases h
        rcases List.mem_append.mp he with hm | hm
        · rcases List.mem_singleton.mp hm with rfl
          exact ⟨p, List.mem_cons_self p rest, i, hinst, rfl⟩
        · rcases ih _ htl e hm with ⟨q, hq, j, hj, rfl⟩
          exact ⟨q, List.mem_cons_of_mem p hq, j, hj, rfl⟩

/-- Membership in `getBySymbol` implies membership in the chart. -/
theorem getBySymbol_subset {c : Chart} {s : String} {e : MCFGChartEntry}
    (h : e ∈ getBySymbol c s) : e ∈ c :=
  List.mem_of_mem_filter h

/-- Inversion for `inferRule`: every produced entry pairs the trigger with a
chart entry (in one of the two orders) through a successful instantiation
of a rule with exactly two right-side elements. -/
theorem inferRule_ok (chart : Chart) (trigger : MCFGChartEntry)
    (r : MCFGRule) (out : List MCFGChartEntry)
    (h : inferRule chart trigger r = .ok out) :
    ∀ e ∈ out, r.right_side.length = 2 ∧ ∃ x y i,
      (x = trigger ∧ y ∈ chart ∨ x ∈ chart ∧ y = trigger) ∧
      r.instantiate_left_side [x.inst, y.inst] = .ok i ∧
      e = MCFGChartEntry.mk i (some r) [x, y] := by
  intro e he
  rw [inferRule] at h
  split at h
  · rename_i b c hr
    have hlen : r.right_side.length = 2 := by rw [hr]; rfl
    simp only [Bind.bind, Except.bind] at h
    refine ⟨hlen, ?_⟩
    by_cases hB : trigger.symbol = b.var <;>
      by_cases hC : trigger.symbol = c.var
    · rw [if_pos hB] at h
      simp only [if_pos hC] at h
      rcases hpb : pairLoopB r trigger (getBySymbol chart c.var)
          with err | fromB
      · simp only [hpb] at h
        cases h
      · simp only [hpb] at h
        rcases hpc : pairLoopC r trigger (getBySymbol chart b.var)
            with err | fromC
        · simp only [hpc] at h
          cases h
        · simp only [hpc] at h
          cases h
          rcases List.mem_append.mp he with hm | hm
          · rcases pairLoopB_ok r trigger _ fromB hpb e hm
                with ⟨p, hp, i, hi, rfl⟩
            exact ⟨trigger, p, i,
              Or.inl ⟨rfl, getBySymbol_subset hp⟩, hi, rfl⟩
          · rcases pairLoopC_ok r trigger _ fromC hpc e hm
                with ⟨p, hp, i, hi, rfl⟩
            exact ⟨p, trigger, i,
              Or.inr ⟨getBySymbol_subset hp, rfl⟩, hi, rfl⟩
    · rw [if_pos hB] at h
      simp only [if_neg hC] at h
      rcases hpb : pairLoopB r trigger (getBySymbol chart c.var)
          with err | fromB
      · simp only [hpb] at h
        cases h
      · simp only [hpb, List.append_nil] at h
        cases h
        rcases pairLoopB_ok r trigger _ _ hpb e he
            with ⟨p, hp, i, hi, rfl⟩
        exact ⟨trigger, p, i,
          Or.inl ⟨rfl, getBySymbol_subset hp⟩, hi, rfl⟩
    · rw [if_neg hB] at h
      simp only [if_pos hC] at h
      rcases hpc : pairLoopC r trigger (getBySymbol chart b.var)
          with err | fromC
      · simp only [hpc] at h
        cases h
      · simp only [hpc, List.nil_append] at h
        cases h
        rcases pairLoopC_ok r trigger _ _ hpc e he
            with ⟨p, hp, i, hi, rfl⟩
        exact ⟨p, trigger, i,
          Or.inr ⟨getBySymbol_subset hp, rfl⟩, hi, rfl⟩
    · rw [if_neg hB] at h
      simp only [if_neg hC] at h
      cases h
      simp at he
  · cases h
    simp at he

/-- Inversion for `infer`: every produced entry arises as in `inferRule_ok`
for some rule of the grammar. -/
theorem infer_ok (rules : List MCFGRule) (chart : Chart)
    (trigger : MCFGChartEntry) (out : List MCFGChartEntry)
    (h : infer rules chart trigger = .ok out) :
    ∀ e ∈ out, ∃ r ∈ rules, r.right_side.length = 2 ∧ ∃ x y i,
      (x = trigger ∧ y ∈ chart ∨ x ∈ chart ∧ y = trigger) ∧
      r.instantiate_left_side [x.inst, y.inst] = .ok i ∧
      e = MCFGChartEntry.mk i (some r) [x, y] := by
  induction rules generalizing out with
  | nil =>
    intro e he
    rw [infer] at h
    cases h
    simp at he
  | cons r rest ih =>
    intro e he
    rw [infer] at h
    simp only [Bind.bind, Except.bind] at h
    split at h
    · cases h
    · rename_i o1 h1
      split at h
      · cases h
      · rename_i o2 h2
        cases h
        rcases List.mem_append.mp he with hm | hm
        · rcases inferRule_ok chart trigger r o1 h1 e hm with ⟨hl, rest2⟩
          exact ⟨r, List.mem_cons_self r rest, hl, rest2⟩
        · rcases ih o2 h2 e hm with ⟨r2, hr2, hl, rest2⟩
          exact ⟨r2, List.mem_cons_of_mem r hr2, hl, rest2⟩

/-- C9: every fact enqueued by the inference step was produced by a grammar
rule with exactly two right-side elements; rules of right-side arity one or
three-plus never contribute. -/
theorem infer_applies_only_binary_rules (rules : List MCFGRule)
    (chart : Chart) (trigger : MCFGChartEntry)
    (out : List MCFGChartEntry) (h : infer rules chart trigger = .ok out) :
    ∀ e ∈ out, ∃ r ∈ rules, e.rule = some r ∧ r.right_side.length = 2 := by
  intro e he
  rcases infer_ok rules chart trigger out h e he
      with ⟨r, hr, hlen, x, y, i, _, _, rfl⟩
  exact ⟨r, hr, rfl, hlen⟩

/-- Concrete seed entry for token `a` at position `0` over `gS`. -/
def aEntry : MCFGChartEntry :=
  .mk ⟨"A", [(0, 1)]⟩ (some (epsRule "A" "a")) [.mk ⟨"a", [(0, 1)]⟩ none []]

/-- Concrete seed entry for token `b` at position `1` over `gS`. -/
def bEntry : MCFGChartEntry :=
  .mk ⟨"B", [(1, 2)]⟩ (some (epsRule "B" "b")) [.mk ⟨"b", [(1, 2)]⟩ none []]

/-- The consequence entry that `infer` derives from `aEntry` and
`bEntry`. -/
def sEntryW : MCFGChartEntry :=
  .mk ⟨"S", [(0, 2)]⟩
    (some ⟨elem "S" [[0, 1]], [elem "A" [[0]], elem "B" [[1]]]⟩)
    [aEntry, bEntry]

/-- Witness for C9: a concrete inference step over `gS` produces exactly one
entry, and the theorem attributes it to a binary rule of the grammar. -/
theorem infer_applies_only_binary_rules_witness :
    infer gS.rules [bEntry] aEntry = .ok [sEntryW] ∧
    ∀ e ∈ [sEntryW], ∃ r ∈ gS.rules,
      e.rule = some r ∧ r.right_side.length = 2 := by
  constructor
  · decide
  · exact infer_applies_only_binary_rules gS.rules [bEntry] aEntry
      [sEntryW] (by decide)

/-- An empty intersection test means genuine disjointness. -/
theorem svInter_eq_false_iff (xs ys : List SV) :
    svInter xs ys = false ↔ ∀ v ∈ xs, v ∉ ys := by
  simp [svInter]

/-- A failed pairwise-sharing scan means the variable sets are pairwise
disjoint. -/
theorem pairwiseSharing_eq_false {α : Type} (f : α → List SV) :
    ∀ l : List α, pairwiseSharing (l.map f) = false →
      List.Pairwise (fun a b => ∀ v ∈ f a, v ∉ f b) l := by
  intro l
  induction l with
  | nil => intro _; exact List.Pairwise.nil
  | cons a rest ih =>
    intro h
    rw [List.map_cons, pairwiseSharing, Bool.or_eq_false_iff] at h
    refine List.Pairwise.cons ?_ (ih h.2)
    intro b hb
    have hany := h.1
    rw [List.any_eq_false] at hany
    exact (svInter_eq_false_iff (f a) (f b)).mp
      (Bool.eq_false_iff.mpr (hany (f b) (List.mem_map_of_mem f hb)))

/-- A successful set-equality test means membership-equivalence. -/
theorem svSetEq_iff (xs ys : List SV) :
    svSetEq xs ys = true ↔ ∀ v, v ∈ xs ↔ v ∈ ys := by
  constructor
  · intro h v
    rw [svSetEq, Bool.and_eq_true] at h
    have h1 := List.all_eq_true.mp h.1
    have h2 := List.all_eq_true.mp h.2
    constructor
    · intro hv
      simpa using h1 v hv
    · intro hv
      simpa using h2 v hv
  · intro h
    rw [svSetEq, Bool.and_eq_true]
    constructor
    · rw [List.all_eq_true]
      intro v hv
      simpa using (h v).mp hv
    · rw [List.all_eq_true]
      intro v hv
      simpa using (h v).mpr hv

/-- C8: rule validation always rejects a rule whose distinct right-side
elements share a string variable, and always rejects a non-epsilon rule
whose left-side variable set differs from the union of its right-side
variable sets. -/
theorem rule_validation_rejects (r : MCFGRule) :
    (¬ List.Pairwise
        (fun a b => ∀ v ∈ a.uniqueStringVariables,
          v ∉ b.uniqueStringVariables) r.right_side →
      r.validate = false) ∧
    (r.is_epsilon = false →
      ¬ (∀ v, v ∈ r.left_side.uniqueStringVariables ↔
          v ∈ r.right_side.flatMap (·.uniqueStringVariables)) →
      r.validate = false) := by
  constructor
  · intro hshare
    by_contra hval
    rw [Bool.not_eq_false, MCFGRule.validate, Bool.and_eq_true,
      Bool.not_eq_true'] at hval
    exact hshare
      (pairwiseSharing_eq_false MCFGRuleElement.uniqueStringVariables
        r.right_side hval.1)
  · intro heps hneq
    by_contra hval
    rw [Bool.not_eq_false, MCFGRule.validate, Bool.and_eq_true,
      Bool.or_eq_true] at hval
    rcases hval.2 with he | hset
    · rw [heps] at he
      cases he
    · exact hneq ((svSetEq_iff _ _).mp hset)

/-- Witness for C8: the rule `A(0) -> B(0) C(0)` shares index `0` between
its right-side elements, and the rule `A(0) -> B(1)` is non-epsilon with
mismatched index sets; validation rejects both. -/
theorem rule_validation_rejects_witness :
    (⟨elem "A" [[0]], [elem "B" [[0]], elem "C" [[0]]]⟩ :
      MCFGRule).validate = false ∧
    (⟨elem "A" [[0]], [elem "B" [[1]]]⟩ : MCFGRule).validate = false := by
  constructor
  · refine (rule_validation_rejects _).1 ?_
    intro hp
    rcases hp with _ | ⟨hab, _⟩
    exact hab (elem "C" [[0]]) (by decide) (SV.idx 0) (by decide) (by decide)
  · refine (rule_validation_rejects _).2 (by decide) ?_
    intro h
    have h0 : SV.idx 0 ∈
        (MCFGRuleElement.uniqueStringVariables (elem "A" [[0]])) := by
      decide
    have := (h (SV.idx 0)).mp h0
    revert this
    decide

/-- Instance-level image of `pairLoopB`: the consequence instances depend
only on the trigger's instance and the partner instances. -/
def pairLoopBInst (r : MCFGRule) (ti : MCFGRuleElementInstance) :
    List MCFGRuleElementInstance →
      Except PyErr (List MCFGRuleElementInstance)
  | [] => .ok []
  | p :: rest => do
    let hd ←
      match r.instantiate_left_side [ti, p] with
      | .ok i => Except.ok [i]
      | .error .valueError => Except.ok []
      | .error e => Except.error e
    let tl ← pairLoopBInst r ti rest
    .ok (hd ++ tl)

/-- Instance-level image of `pairLoopC`. -/
def pairLoopCInst (r : MCFGRule) (ti : MCFGRuleElementInstance) :
    List MCFGRuleElementInstance →
      Except PyErr (List MCFGRuleElementInstance)
  | [] => .ok []
  | p :: rest => do
    let hd ←
      match r.instantiate_left_side [p, ti] with
      | .ok i => Except.ok [i]
      | .error .valueError => Except.ok []
      | .error e => Except.error e
    let tl ← pairLoopCInst r ti rest
    .ok (hd ++ tl)

/-- Instance-level image of `inferRule`. -/
def inferRuleInst (chart : Chart) (ti : MCFGRuleElementInstance)
    (r : MCFGRule) : Except PyErr (List MCFGRuleElementInstance) :=
  match r.right_side with
  | [b, c] => do
    let fromB ←
      if ti.var = b.var then
        pairLoopBInst r ti
          (List.map MCFGChartEntry.inst (getBySymbol chart c.var))
      else .ok []
    let fromC ←
      if ti.var = c.var then
        pairLoopCInst r ti
          (List.map MCFGChartEntry.inst (getBySymbol chart b.var))
      else .ok []
    .ok (fromB ++ fromC)
  | _ => .ok []

/-- Instance-level image of `infer`. -/
def inferInst (rules : List MCFGRule) (chart : Chart)
    (ti : MCFGRuleElementInstance) :
    Except PyErr (List MCFGRuleElementInstance) :=
  match rules with
  | [] => .ok []
  | r :: rest => do
    let h ← inferRuleInst chart ti r
    let t ← inferInst rest chart ti
    .ok (h ++ t)

/-- `pairLoopB` projects onto `pairLoopBInst` under the instance map. -/
theorem pairLoopB_inst (r : MCFGRule) (trigger : MCFGChartEntry) :
    ∀ ps, Except.map (List.map MCFGChartEntry.inst)
        (pairLoopB r trigger ps) =
      pairLoopBInst r trigger.inst (ps.map MCFGChartEntry.inst) := by
  intro ps
  induction ps with
  | nil => rfl
  | cons p rest ih =>
    rw [List.map_cons, pairLoopB, pairLoopBInst]
    simp only [Bind.bind, Except.bind, ← ih]
    rcases hinst : r.instantiate_left_side [trigger.inst, p.inst]
        with err | i
    · cases err <;>
        · rcases htl : pairLoopB r trigger rest with err2 | tl <;>
            simp [htl, Except.map, MCFGChartEntry.inst]
    · rcases htl : pairLoopB r trigger rest with err2 | tl <;>
        simp [htl, Except.map, MCFGChartEntry.inst]

/-- `pairLoopC` projects onto `pairLoopCInst` under the instance map. -/
theorem pairLoopC_inst (r : MCFGRule) (trigger : MCFGChartEntry) :
    ∀ ps, Except.map (List.map MCFGChartEntry.inst)
        (pairLoopC r trigger ps) =
      pairLoopCInst r trigger.inst (ps.map MCFGChartEntry.inst) := by
  intro ps
  induction ps with
  | nil => rfl
  | cons p rest ih =>
    rw [List.map_cons, pairLoopC, pairLoopCInst]
    simp only [Bind.bind, Except.bind, ← ih]
    rcases hinst : r.instantiate_left_side [p.inst, trigger.inst]
        with err | i
    · cases err <;>
        · rcases htl : pairLoopC r trigger rest with err2 | tl <;>
            simp [htl, Except.map, MCFGChartEntry.inst]
    · rcases htl : pairLoopC r trigger rest with err2 | tl <;>
        simp [htl, Except.map, MCFGChartEntry.inst]

/-- `inferRule` projects onto `inferRuleInst` under the instance map. -/
theorem inferRule_inst (chart : Chart) (trigger : MCFGChartEntry)
    (r : MCFGRule) :
    Except.map (List.map MCFGChartEntry.inst)
        (inferRule chart trigger r) =
      inferRuleInst chart trigger.inst r := by
  rw [inferRule, inferRuleInst]
  split
  · rename_i b c hr
    simp only [Bind.bind, Except.bind]
    have hsym : trigger.symbol = trigger.inst.var := rfl
    rw [hsym]
    simp only [← pairLoopB_inst, ← pairLoopC_inst]
    by_cases hB : trigger.inst.var = b.var <;>
      by_cases hC : trigger.inst.var = c.var <;>
        simp only [if_pos, if_neg, hB, hC, if_true, if_false] <;>
          rcases hpb : pairLoopB r trigger (getBySymbol chart c.var)
              with err | fromB <;>
            rcases hpc : pairLoopC r trigger (getBySymbol chart b.var)
                with err2 | fromC <;>
              simp [hpb, hpc, Except.map]
    all_goals split_ifs <;> simp [Except.map]
  · rfl

/-- `infer` projects onto `inferInst` under the instance map. -/
theorem infer_inst (rules : List MCFGRule) (chart : Chart)
    (trigger : MCFGChartEntry) :
    Except.map (List.map MCFGChartEntry.inst)
        (infer rules chart trigger) =
      inferInst rules chart trigger.inst := by
  induction rules with
  | nil => rfl
  | cons r rest ih =>
    rw [infer, inferInst]
    simp only [Bind.bind, Except.bind, ← ih, ← inferRule_inst]
    rcases h1 : inferRule chart trigger r with err | o1 <;>
      rcases h2 : infer rest chart trigger with err2 | o2 <;>
        simp [h1, h2, Except.map]

deriving instance DecidableEq for ParserState

/-- A state whose agenda is empty is a fixed point of `runSteps`. -/
theorem runSteps_of_agenda_nil (rules : List MCFGRule) (n : Nat)
    (st : ParserState) (h : st.agenda = []) :
    runSteps rules n st = .ok st := by
  cases n with
  | zero => rfl
  | succ m =>
    rw [runSteps, h]

/-- Unfolding one loop iteration when the agenda is nonempty. -/
theorem runSteps_cons (rules : List MCFGRule) (n : Nat) (st : ParserState)
    (t : MCFGChartEntry) (rest : List MCFGChartEntry)
    (h : st.agenda = t :: rest) :
    runSteps rules (n + 1) st =
      (infer rules (chartAdd st.chart t) t).bind
        (fun cons => runSteps rules n
          ⟨chartAdd st.chart t, rest ++ cons⟩) := by
  rw [runSteps, h]
  rfl

/-- Fuel composes: running `a + b` steps equals running `a` then `b`. -/
theorem runSteps_add (rules : List MCFGRule) :
    ∀ a b st, runSteps rules (a + b) st =
      (runSteps rules a st).bind (runSteps rules b) := by
  intro a
  induction a with
  | zero =>
    intro b st
    rw [Nat.zero_add, runSteps]
    rfl
  | succ m ih =>
    intro b st
    have hshift : m + 1 + b = (m + b) + 1 := by omega
    rw [hshift]
    rcases hag : st.agenda with _ | ⟨t, rest⟩
    · rw [runSteps_of_agenda_nil rules (m + b + 1) st hag,
        runSteps_of_agenda_nil rules (m + 1) st hag]
      exact (runSteps_of_agenda_nil rules b st hag).symm
    · rw [runSteps_cons rules (m + b) st t rest hag,
        runSteps_cons rules m st t rest hag]
      rcases hinf : infer rules (chartAdd st.chart t) t with err | cons
      · rfl
      · exact ih b ⟨chartAdd st.chart t, rest ++ cons⟩

/-- The instance keyed by `X` in the divergence fixture. -/
def instX : MCFGRuleElementInstance := ⟨"X", [(0, 2), (0, 1)]⟩

/-- The instance keyed by `Y` in the divergence fixture. -/
def instY : MCFGRuleElementInstance := ⟨"Y", [(0, 2)]⟩

/-- Fixture: a grammar, valid under every construction-time check, on which
the agenda loop cycles forever: `X` facts re-derive `Y` and `Y` facts
re-derive `X`, while the chart (which already holds both) absorbs every
commit without stopping the re-enqueueing. -/
def gCyc : MCFGGrammar :=
  ⟨["a", "b"], ["S", "X", "Y", "P", "Q", "A", "B"],
   [epsRule "A" "a", epsRule "B" "b", epsRule "P" "b", epsRule "Q" "a",
    ⟨elem "X" [[0, 1], [0]], [elem "A" [[0]], elem "B" [[1]]]⟩,
    ⟨elem "Y" [[0, 1]], [elem "X" [[0], [0]], elem "P" [[1]]]⟩,
    ⟨elem "X" [[0], [1]], [elem "Y" [[0]], elem "Q" [[1]]]⟩], "S"⟩

/-- The four agenda-instance patterns of the limit cycle. -/
def cycAgendas : List (List MCFGRuleElementInstance) :=
  [[instX, instX], [instX, instY], [instY, instY], [instY, instX]]

/-- The cyclic invariant: both cycle keys are committed, inference from
either cycle instance re-derives exactly the other, and the agenda's
instances follow one of the four cycle patterns. -/
def cycInv (st : ParserState) : Prop :=
  st.chart.any
    (fun e => decide (chartKey e = (instX.var, instX.string_spans))) =
      true ∧
  st.chart.any
    (fun e => decide (chartKey e = (instY.var, instY.string_spans))) =
      true ∧
  inferInst gCyc.rules st.chart instX = .ok [instY] ∧
  inferInst gCyc.rules st.chart instY = .ok [instX] ∧
  st.agenda.map MCFGChartEntry.inst ∈ cycAgendas

/-- `chartAdd` is the identity as soon as the entry's key is present. -/
theorem chartAdd_of_inst_committed (c : Chart) (e : MCFGChartEntry)
    (h : c.any
      (fun x => decide (chartKey x = (e.inst.var, e.inst.string_spans))) =
        true) :
    chartAdd c e = c := by
  have h2 : (c.any fun x => decide (chartKey x = chartKey e)) = true := h
  unfold chartAdd
  rw [if_pos h2]

/-- One loop iteration from a `cycInv` state reaches another `cycInv` state
with the same chart. -/
theorem cycInv_step (st : ParserState) (h : cycInv st) :
    ∃ st2, (∀ n, runSteps gCyc.rules (n + 1) st =
      runSteps gCyc.rules n st2) ∧ cycInv st2 := by
  obtain ⟨hX, hY, hiX, hiY, hpat⟩ := h
  have hsplit : ∀ (a b : MCFGRuleElementInstance),
      st.agenda.map MCFGChartEntry.inst = [a, b] →
      ∃ e1 e2, st.agenda = [e1, e2] ∧ e1.inst = a ∧ e2.inst = b := by
    intro a b hab
    rcases hag2 : st.agenda with _ | ⟨e1, rest1⟩
    · rw [hag2] at hab
      cases hab
    · rcases rest1 with _ | ⟨e2, rest2⟩
      · rw [hag2] at hab
        simp at hab
      · rcases rest2 with _ | ⟨e3, rest3⟩
        · rw [hag2] at hab
          simp only [List.map_cons, List.map_nil] at hab
          injection hab with h1 h2
          injection h2 with h3 h4
          exact ⟨e1, e2, rfl, h1, h3⟩
        · rw [hag2] at hab
          simp at hab
  have hstep : ∀ (e1 e2 : MCFGChartEntry) (other : MCFGRuleElementInstance),
      st.agenda = [e1, e2] →
      inferInst gCyc.rules st.chart e1.inst = .ok [other] →
      st.chart.any (fun x =>
        decide (chartKey x = (e1.inst.var, e1.inst.string_spans))) = true →
      ∃ st2, (∀ n, runSteps gCyc.rules (n + 1) st =
          runSteps gCyc.rules n st2) ∧
        st2.chart = st.chart ∧
        st2.agenda.map MCFGChartEntry.inst = [e2.inst, other] := by
    intro e1 e2 other hag hinf hkey
    have hadd : chartAdd st.chart e1 = st.chart :=
      chartAdd_of_inst_committed st.chart e1 hkey
    have hproj := infer_inst gCyc.rules st.chart e1
    rw [hinf] at hproj
    rcases hinfer : infer gCyc.rules st.chart e1 with err | cons
    · rw [hinfer] at hproj
      simp [Except.map] at hproj
    · rw [hinfer] at hproj
      simp only [Except.map] at hproj
      injection hproj with hcons
      refine ⟨⟨st.chart, [e2] ++ cons⟩, ?_, rfl, ?_⟩
      · intro n
        rw [runSteps_cons gCyc.rules n st e1 [e2] hag, hadd, hinfer]
        rfl
      · simp only [List.map_append, hcons]
        rfl
  rw [cycAgendas] at hpat
  simp only [List.mem_cons, List.not_mem_nil, or_false] at hpat
  rcases hpat with hp | hp | hp | hp
  · rcases hsplit instX instX hp with ⟨e1, e2, hag, h1, h2⟩
    rcases hstep e1 e2 instY hag (by rw [h1]; exact hiX)
        (by rw [h1]; exact hX) with ⟨st2, hrun, hch, hagmap⟩
    refine ⟨st2, hrun, ?_⟩
    rw [cycInv, hch]
    refine ⟨hX, hY, hiX, hiY, ?_⟩
    rw [hagmap, h2]
    simp [cycAgendas]
  · rcases hsplit instX instY hp with ⟨e1, e2, hag, h1, h2⟩
    rcases hstep e1 e2 instY hag (by rw [h1]; exact hiX)
        (by rw [h1]; exact hX) with ⟨st2, hrun, hch, hagmap⟩
    refine ⟨st2, hrun, ?_⟩
    rw [cycInv, hch]
    refine ⟨hX, hY, hiX, hiY, ?_⟩
    rw [hagmap, h2]
    simp [cycAgendas]
  · rcases hsplit instY instY hp with ⟨e1, e2, hag, h1, h2⟩
    rcases hstep e1 e2 instX hag (by rw [h1]; exact hiY)
        (by rw [h1]; exact hY) with ⟨st2, hrun, hch, hagmap⟩
    refine ⟨st2, hrun, ?_⟩
    rw [cycInv, hch]
    refine ⟨hX, hY, hiX, hiY, ?_⟩
    rw [hagmap, h2]
    simp [cycAgendas]
  · rcases hsplit instY instX hp with ⟨e1, e2, hag, h1, h2⟩
    rcases hstep e1 e2 instX hag (by rw [h1]; exact hiY)
        (by rw [h1]; exact hY) with ⟨st2, hrun, hch, hagmap⟩
    refine ⟨st2, hrun, ?_⟩
    rw [cycInv, hch]
    refine ⟨hX, hY, hiX, hiY, ?_⟩
    rw [hagmap, h2]
    simp [cycAgendas]

/-- From a `cycInv` state, any number of steps succeeds and lands in a
`cycInv` state again. -/
theorem cycInv_runSteps :
    ∀ (n : Nat) (st : ParserState), cycInv st →
      ∃ st2, runSteps gCyc.rules n st = .ok st2 ∧ cycInv st2 := by
  intro n
  induction n with
  | zero => exact fun st h => ⟨st, rfl, h⟩
  | succ m ih =>
    intro st h
    rcases cycInv_step st h with ⟨st2, hrun, h2⟩
    rw [hrun m]
    exact ih st2 h2

/-- The seeded initial state of the divergence fixture. -/
def cycStart : ParserState :=
  match seedTokens gCyc.rules 0 ["a", "b"] ⟨[], []⟩ with
  | .ok st => st
  | .error _ => ⟨[], []⟩

/-- Seeding the divergence fixture succeeds and yields `cycStart`. -/
theorem cyc_seed :
    seedTokens gCyc.rules 0 ["a", "b"] ⟨[], []⟩ = .ok cycStart := by
  rfl

/-- The state of the divergence fixture after seven loop iterations. -/
def cycSeven : ParserState :=
  match runSteps gCyc.rules 7 cycStart with
  | .ok st => st
  | .error _ => ⟨[], []⟩

/-- Seven iterations succeed and yield `cycSeven`. -/
theorem cyc_reach : runSteps gCyc.rules 7 cycStart = .ok cycSeven := by
  rfl

/-- `cycSeven` satisfies the cyclic invariant. -/
theorem cyc_seven_inv : cycInv cycSeven := by
  refine ⟨by decide, by decide, by decide, by decide, by decide⟩

/-- Whether a truncated run ended with work still pending. -/
def ongoing (x : Except PyErr ParserState) : Bool :=
  match x with
  | .ok st => !st.agenda.isEmpty
  | .error _ => false

/-- Every fuel below seven leaves the divergence fixture with a nonempty
agenda. -/
theorem cyc_early :
    ∀ m, m < 7 → ongoing (runSteps gCyc.rules m cycStart) = true := by
  decide

/-- C4: the parse loop does not halt on every valid grammar.  The grammar
`gCyc` passes every construction-time validation, yet on tokens `[a, b]`
the loop re-enqueues the already-committed facts `X: ((0,2),(0,1))` and
`Y: ((0,2))` forever, so no fuel bound ever sees the agenda empty and the
Python `parse` never returns. -/
theorem parse_loop_diverges :
    gCyc.validate = true ∧
    ∀ fuel, parseWith gCyc [] ["a", "b"] fuel = .ok none := by
  refine ⟨by decide, ?_⟩
  intro fuel
  have hmain : ∃ stF, runSteps gCyc.rules fuel cycStart = .ok stF ∧
      stF.agenda ≠ [] := by
    rcases Nat.lt_or_ge fuel 7 with hlt | hge
    · have hon := cyc_early fuel hlt
      rcases hrun : runSteps gCyc.rules fuel cycStart with err | stF
    
      · rw [hrun] at hon
        simp [ongoing] at hon
      · rw [hrun] at hon
        refine ⟨stF, rfl, fun hnil => ?_⟩
        simp [ongoing, hnil] at hon
    · obtain ⟨m, rfl⟩ : ∃ m, fuel = 7 + m := ⟨fuel - 7, by omega⟩
      rcases cycInv_runSteps m cycSeven cyc_seven_inv
          with ⟨st2, hrun2, hinv⟩
      refine ⟨st2, ?_, fun hnil => ?_⟩
      · rw [runSteps_add gCyc.rules 7 m cycStart, cyc_reach]
        exact hrun2
      · rcases hinv with ⟨_, _, _, _, hpat⟩
        rw [hnil, List.map_nil] at hpat
        exact absurd hpat (by decide)
  rcases hmain with ⟨stF, hrun, hne⟩
  unfold parseWith
  rw [cyc_seed]
  simp only [Bind.bind, Except.bind]
  rw [hrun]
  have hemp : stF.agenda.isEmpty = false := by
    rcases hag : stF.agenda with _ | ⟨t, rest⟩
    · exact absurd hag hne
    · rfl
  simp [hemp]

/-- Whether every right-side argument group of a rule holds exactly one
string variable (the shape the textual front end always produces). -/
def singletonGroups (r : MCFGRule) : Bool :=
  r.right_side.all (fun e => e.string_variables.all (fun g => g.length = 1))

/-- A linear rule: epsilon, or with singleton right-side groups, no string
variable repeated across the right side, and none repeated on the left. -/
def linearRule (r : MCFGRule) : Bool :=
  r.is_epsilon ||
  (singletonGroups r &&
    decide ((r.right_side.flatMap
      MCFGRuleElement.uniqueStringVariables).Nodup) &&
    decide (r.left_side.uniqueStringVariables.Nodup))

/-- The token positions inside one span. -/
def spanPositions (s : Span) : List Nat := List.range' s.1 (s.2 - s.1)

/-- The token positions covered by a span tuple, in span order. -/
def coveredPositions (spans : List Span) : List Nat :=
  spans.flatMap spanPositions

/-- The positions bound to a variable by the span map, or none. -/
def posOf (m : List (SV × Span)) (k : SV) : List Nat :=
  match lookupLast m k with
  | some s => spanPositions s
  | none => []

/-- `headKeyPairs` on all-singleton groups succeeds, with the groups'
variables as keys and the spans as values. -/
theorem headKeyPairs_singleton :
    ∀ ps : List (List SV × Span), (∀ p ∈ ps, p.1.length = 1) →
      ∃ m, headKeyPairs ps = .ok m ∧
        m.map Prod.fst = ps.flatMap Prod.fst ∧
        m.map Prod.snd = ps.map Prod.snd := by
  intro ps
  induction ps with
  | nil => exact fun _ => ⟨[], rfl, rfl, rfl⟩
  | cons p rest ih =>
    intro h
    obtain ⟨g, sp⟩ := p
    rcases g with _ | ⟨k, gtl⟩
    · exact absurd (h ⟨[], sp⟩ (List.mem_cons_self _ _)) (by simp)
    · have hk : gtl = [] := by
        have := h ⟨k :: gtl, sp⟩ (List.mem_cons_self _ _)
        simp at this
        exact this
      subst hk
      rcases ih (fun q hq => h q (List.mem_cons_of_mem _ hq))
          with ⟨m, hm, hfst, hsnd⟩
      refine ⟨(k, sp) :: m, ?_, ?_, ?_⟩
      · rw [headKeyPairs, hm]
        rfl
      · simp [hfst]
      · simp [hsnd]

/-- Alignment unpacked into its three arithmetic pieces. -/
theorem right_side_aligns_parts (r : MCFGRule)
    (right : List MCFGRuleElementInstance)
    (h : r.right_side_aligns right = true) :
    right.length = r.right_side.length ∧
    (∀ p ∈ r.right_side.zip right, p.1.var = p.2.var) ∧
    (∀ p ∈ r.right_side.zip right,
      p.1.string_variables.length = p.2.string_spans.length) := by
  rw [MCFGRule.right_side_aligns, Bool.and_eq_true, Bool.and_eq_true] at h
  refine ⟨by simpa using h.1.1, ?_, ?_⟩
  · intro p hp
    simpa using List.all_eq_true.mp h.1.2 p hp
  · intro p hp
    simpa using List.all_eq_true.mp h.2 p hp

/-- Concatenating the groups of a full zip recovers the flattened groups. -/
theorem zip_flatMap_fst :
    ∀ (a : List (List SV)) (b : List Span), a.length = b.length →
      ((a.zip b).flatMap Prod.fst) = a.flatten := by
  intro a
  induction a with
  | nil => intro b _; rfl
  | cons g a ih =>
    intro b hb
    rcases b with _ | ⟨sp, b⟩
    · cases hb
    · simp only [List.zip_cons_cons, List.flatMap_cons, List.flatten_cons]
      rw [ih b (by simpa using hb)]

/-- The pairs fed to the span map have the right side's variables as first
components (in order) and the children's spans as second components. -/
theorem span_pairs_shape :
    ∀ (els : List MCFGRuleElement) (insts : List MCFGRuleElementInstance),
      insts.length = els.length →
      (∀ p ∈ els.zip insts,
        p.1.string_variables.length = p.2.string_spans.length) →
      ((els.zip insts).flatMap
          (fun p => p.1.string_variables.zip p.2.string_spans)).flatMap
            Prod.fst =
        els.flatMap MCFGRuleElement.uniqueStringVariables ∧
      ((els.zip insts).flatMap
          (fun p => p.1.string_variables.zip p.2.string_spans)).map
            Prod.snd =
        insts.flatMap MCFGRuleElementInstance.string_spans := by
  intro els
  induction els with
  | nil => intro insts h _; rw [List.length_eq_zero.mp h]; exact ⟨rfl, rfl⟩
  | cons e els ih =>
    intro insts hlen hgrp
    rcases insts with _ | ⟨i, insts⟩
    · cases hlen
    · have hhd : e.string_variables.length = i.string_spans.length :=
        hgrp (e, i) (by simp)
      rcases ih insts (by simpa using hlen)
          (fun p hp => hgrp p (List.mem_cons_of_mem _ hp)) with ⟨ih1, ih2⟩
      constructor
      · simp only [List.zip_cons_cons, List.flatMap_cons, List.flatMap_append,
          List.flatMap_cons]
        rw [ih1, zip_flatMap_fst _ _ hhd]
        rfl
      · simp only [List.zip_cons_cons, List.flatMap_cons, List.map_append]
        rw [ih2, List.map_snd_zip _ _ (le_of_eq hhd.symm)]

/-- On a singleton-group rule with aligned children, the span map is built
successfully; its keys are the right side's variables in order and its
values are the children's spans in order. -/
theorem build_span_map_ok (r : MCFGRule)
    (right : List MCFGRuleElementInstance)
    (hsing : singletonGroups r = true)
    (halign : r.right_side_aligns right = true) :
    ∃ m, r.build_span_map right = .ok m ∧
      m.map Prod.fst =
        r.right_side.flatMap MCFGRuleElement.uniqueStringVariables ∧
      m.map Prod.snd =
        right.flatMap MCFGRuleElementInstance.string_spans := by
  obtain ⟨hlen, _, hgrp⟩ := right_side_aligns_parts r right halign
  have hsing2 : r.right_side.all
      (fun e => e.string_variables.all (fun g => g.length = 1)) = true :=
    hsing
  have hps : ∀ p ∈ (r.right_side.zip right).flatMap
      (fun p => p.1.string_variables.zip p.2.string_spans),
      p.1.length = 1 := by
    intro p hp
    rw [List.mem_flatMap] at hp
    rcases hp with ⟨q, hq, hmem⟩
    have hq1 := (List.of_mem_zip hq).1
    have hp1 := (List.of_mem_zip hmem).1
    have := List.all_eq_true.mp
      (List.all_eq_true.mp hsing2 q.1 hq1) p.1 hp1
    simpa using this
  rcases headKeyPairs_singleton _ hps with ⟨m, hm, hfst, hsnd⟩
  rcases span_pairs_shape r.right_side right hlen hgrp with ⟨hsh1, hsh2⟩
  refine ⟨m, ?_, ?_, ?_⟩
  · rw [MCFGRule.build_span_map, if_pos halign]
    exact hm
  · rw [hfst, hsh1]
  · rw [hsnd, hsh2]

/-- A successful lookup returns one of the stored pairs. -/
theorem lookupLast_mem :
    ∀ (m : List (SV × Span)) (k : SV) (s : Span),
      lookupLast m k = some s → (k, s) ∈ m := by
  intro m
  induction m with
  | nil => intro k s h; cases h
  | cons p rest ih =>
    intro k s h
    rw [lookupLast] at h
    rcases hr : lookupLast rest k with _ | s2
    · rw [hr] at h
      by_cases hk : p.1 = k
      · rw [if_pos hk] at h
        injection h with h2
        exact List.mem_cons.mpr (Or.inl (by rw [← hk, ← h2, Prod.mk.eta]))
      · rw [if_neg hk] at h
        cases h
    · rw [hr] at h
      injection h with h2
      exact List.mem_cons_of_mem p (h2 ▸ ih k s2 hr)

/-- A key present among the stored keys always looks up successfully. -/
theorem lookupLast_isSome :
    ∀ (m : List (SV × Span)) (k : SV), k ∈ m.map Prod.fst →
      ∃ s, lookupLast m k = some s := by
  intro m
  induction m with
  | nil => intro k h; simp at h
  | cons p rest ih =>
    intro k h
    rw [lookupLast]
    rcases hr : lookupLast rest k with _ | s2
    · by_cases hk : p.1 = k
      · exact ⟨p.2, by simp [hk]⟩
      · rw [List.map_cons, List.mem_cons] at h
        rcases h with h1 | h2
        · exact absurd h1.symm hk
        · rcases ih k h2 with ⟨s, hs⟩
          rw [hs] at hr
          cases hr
    · exact ⟨s2, rfl⟩

/-- An absent key never looks up. -/
theorem lookupLast_eq_none :
    ∀ (m : List (SV × Span)) (k : SV), k ∉ m.map Prod.fst →
      lookupLast m k = none := by
  intro m
  induction m with
  | nil => intro _ _; rfl
  | cons p rest ih =>
    intro k h
    rw [lookupLast, ih k (fun hk => h (by simp [hk]))]
    rw [if_neg (fun hk => h (by simp [← hk]))]

/-- Splitting a contiguous run of positions at an interior point. -/
theorem spanPositions_split (a b c : Nat) (h1 : a ≤ b) (h2 : b ≤ c) :
    spanPositions (a, c) = spanPositions (a, b) ++ spanPositions (b, c) := by
  unfold spanPositions
  have h3 := List.range'_append a (b - a) (c - b) 1
  simp only [Nat.one_mul] at h3
  rw [show a + (b - a) = b by omega] at h3
  rw [show c - b + (b - a) = c - a by omega] at h3
  exact h3.symm

/-- A successful adjacency chain telescopes: the span from the first
variable's begin to the last variable's end covers exactly the
concatenation of the member variables' positions. -/
theorem adjacencyChain_ok_positions (m : List (SV × Span))
    (hwf : ∀ p ∈ m, p.2.1 ≤ p.2.2) :
    ∀ (rest : List SV) (k : SV) (s0 : Span),
      lookupLast m k = some s0 →
      adjacencyChain m k rest = .ok () →
      ∃ slast, lookupLast m (rest.getLastD k) = some slast ∧
        s0.1 ≤ s0.2 ∧ s0.1 ≤ slast.2 ∧
        spanPositions (s0.1, slast.2) = (k :: rest).flatMap (posOf m) := by
  intro rest
  induction rest with
  | nil =>
    intro k s0 hk _
    refine ⟨s0, hk, hwf (k, s0) (lookupLast_mem m k s0 hk), ?_, ?_⟩
    · exact hwf (k, s0) (lookupLast_mem m k s0 hk)
    · simp only [List.flatMap_cons, List.flatMap_nil, List.append_nil,
        posOf, hk]
  | cons k2 rest2 ih =>
    intro k s0 hk hch
    rw [adjacencyChain] at hch
    simp only [Bind.bind, Except.bind, lookupE, hk] at hch
    rcases hk2 : lookupLast m k2 with _ | s1
    · simp only [hk2] at hch
      cases hch
    · simp only [hk2] at hch
      by_cases hadj : s0.2 = s1.1
      · rw [if_pos hadj] at hch
        rcases ih k2 s1 hk2 hch with ⟨slast, hlast, hwf1, hle1, hpos⟩
        have hwf0 : s0.1 ≤ s0.2 := hwf (k, s0) (lookupLast_mem m k s0 hk)
        refine ⟨slast, ?_, hwf0, ?_, ?_⟩
        · rw [List.getLastD_cons]
          exact hlast
        · omega
        · rw [spanPositions_split s0.1 s0.2 slast.2 hwf0 (by omega)]
          rw [List.flatMap_cons]
          congr 1
          · simp only [posOf, hk]
          · rw [hadj, hpos]
      · rw [if_neg hadj] at hch
        cases hch

/-- A successful `groupSpan` is well-formed and covers exactly the
positions of the group's variables, in order. -/
theorem groupSpan_ok (m : List (SV × Span))
    (hwf : ∀ p ∈ m, p.2.1 ≤ p.2.2) (vs : List SV) (sp : Span)
    (h : groupSpan m vs = .ok sp) :
    sp.1 ≤ sp.2 ∧ spanPositions sp = vs.flatMap (posOf m) := by
  rcases vs with _ | ⟨k, rest⟩
  · rw [groupSpan] at h
    cases h
  · rw [groupSpan] at h
    simp only [Bind.bind, Except.bind] at h
    rcases hch : adjacencyChain m k rest with err | u
    · simp only [hch] at h
      cases h
    · simp only [hch] at h
      rcases hk : lookupLast m k with _ | s0
      · simp only [lookupE, hk] at h
        cases h
      · simp only [lookupE, hk] at h
        rcases hlast2 : lookupLast m (rest.getLastD k) with _ | s1
        · simp only [hlast2] at h
          cases h
        · simp only [hlast2] at h
          cases h
          obtain ⟨slast, hlast, hwf0, hle, hpos⟩ :=
            adjacencyChain_ok_positions m hwf rest k s0 hk hch
          rw [hlast] at hlast2
          injection hlast2 with hsl
          constructor
          · simp only [← hsl]
            exact hle
          · rw [← hsl]
            exact hpos

/-- A successful `mapGroupSpans` yields well-formed spans covering exactly
the groups' variables' positions, in group order. -/
theorem mapGroupSpans_ok (m : List (SV × Span))
    (hwf : ∀ p ∈ m, p.2.1 ≤ p.2.2) :
    ∀ (gs : List (List SV)) (spans : List Span),
      mapGroupSpans m gs = .ok spans →
      (∀ s ∈ spans, s.1 ≤ s.2) ∧
      coveredPositions spans =
        gs.flatMap (fun g => g.flatMap (posOf m)) := by
  intro gs
  induction gs with
  | nil =>
    intro spans h
    rw [mapGroupSpans] at h
    cases h
    exact ⟨by simp, rfl⟩
  | cons g gs ih =>
    intro spans h
    rw [mapGroupSpans] at h
    simp only [Bind.bind, Except.bind] at h
    rcases hg : groupSpan m g with err | s
    · rw [hg] at h
      cases h
    · rw [hg] at h
      rcases hrest : mapGroupSpans m gs with err | rest
      · rw [hrest] at h
        cases h
      · rw [hrest] at h
        cases h
        rcases groupSpan_ok m hwf g s hg with ⟨hw, hp⟩
        rcases ih rest hrest with ⟨hwr, hpr⟩
        constructor
        · intro x hx
          rcases List.mem_cons.mp hx with rfl | hx2
          · exact hw
          · exact hwr x hx2
        · rw [coveredPositions, List.flatMap_cons, List.flatMap_cons]
          rw [← coveredPositions, hpr, hp]

/-- Pointwise-equal functions on members give equal flat maps. -/
theorem flatMap_congr_mem {α β : Type} (l : List α) (f g : α → List β)
    (h : ∀ a ∈ l, f a = g a) : l.flatMap f = l.flatMap g := by
  induction l with
  | nil => rfl
  | cons a l ih =>
    rw [List.flatMap_cons, List.flatMap_cons, h a (List.mem_cons_self a l),
      ih (fun b hb => h b (List.mem_cons_of_mem a hb))]

/-- Flat-mapping group-wise equals flat-mapping the flattened groups. -/
theorem flatMap_flatten {α β : Type} (gs : List (List α)) (f : α → List β) :
    gs.flatMap (fun g => g.flatMap f) = gs.flatten.flatMap f := by
  induction gs with
  | nil => rfl
  | cons g gs ih =>
    rw [List.flatMap_cons, List.flatten_cons, List.flatMap_append, ih]

/-- Extending the map with a fresh binding does not change the positions of
a variable already bound. -/
theorem posOf_cons_of_mem (p : SV × Span) (rest : List (SV × Span)) (k : SV)
    (hk : k ∈ rest.map Prod.fst) : posOf (p :: rest) k = posOf rest k := by
  rcases lookupLast_isSome rest k hk with ⟨s, hs⟩
  simp [posOf, lookupLast, hs]

/-- With duplicate-free keys, walking the keys through `posOf` recovers the
positions of the stored spans, in order. -/
theorem flatMap_posOf_values :
    ∀ m : List (SV × Span), (m.map Prod.fst).Nodup →
      (m.map Prod.fst).flatMap (posOf m) =
        coveredPositions (m.map Prod.snd) := by
  intro m
  induction m with
  | nil => intro _; rfl
  | cons p rest ih =>
    intro hnd
    rw [List.map_cons, List.map_cons, List.flatMap_cons, coveredPositions,
      List.flatMap_cons]
    have hnotin : p.1 ∉ rest.map Prod.fst :=
      (List.nodup_cons.mp (by simpa using hnd)).1
    have hnd2 : (rest.map Prod.fst).Nodup :=
      (List.nodup_cons.mp (by simpa using hnd)).2
    congr 1
    · simp [posOf, lookupLast, lookupLast_eq_none rest p.1 hnotin]
    · rw [← coveredPositions, ← ih hnd2]
      exact flatMap_congr_mem _ _ _
        (fun k hk => posOf_cons_of_mem p rest k hk)

/-- An epsilon rule that instantiates successfully passes its only child's
spans through unchanged. -/
theorem instantiate_epsilon_spans (r : MCFGRule)
    (heps : r.is_epsilon = true) (child : MCFGRuleElementInstance)
    (inst : MCFGRuleElementInstance)
    (h : r.instantiate_left_side [child] = .ok inst) :
    inst.string_spans = child.string_spans := by
  rw [MCFGRule.instantiate_left_side, if_pos heps] at h
  rcases hh : groupHeads r.left_side.string_variables with err | strvars
  · simp only [hh] at h
    cases h
  · simp only [hh] at h
    by_cases hm : [child].map (fun i => SV.lit i.var) = strvars
    · rw [if_pos hm] at h
      injection h with h2
      rw [← h2]
      simp
    · rw [if_neg hm] at h
      rw [instantiateSpanPath] at h
      have halign : r.right_side_aligns [child] = false := by
        rw [MCFGRule.right_side_aligns]
        have : r.right_side.length = 0 := by
          rw [MCFGRule.is_epsilon] at heps
          simpa using heps
        simp [this]
      rw [MCFGRule.build_span_map, halign] at h
      simp at h

/-- The span-composition core theorem for a linear non-epsilon rule: a
successful instantiation produces well-formed spans that cover, up to
reordering, exactly the positions covered by the children's spans. -/
theorem instantiate_covered (r : MCFGRule)
    (right : List MCFGRuleElementInstance)
    (hval : r.validate = true) (heps : r.is_epsilon = false)
    (hlin : linearRule r = true)
    (hwfc : ∀ i ∈ right, ∀ s ∈ i.string_spans, s.1 ≤ s.2)
    (inst : MCFGRuleElementInstance)
    (h : r.instantiate_left_side right = .ok inst) :
    (∀ s ∈ inst.string_spans, s.1 ≤ s.2) ∧
    (coveredPositions inst.string_spans).Perm
      (coveredPositions (right.flatMap
        MCFGRuleElementInstance.string_spans)) := by
  rw [linearRule, heps, Bool.false_or, Bool.and_eq_true,
    Bool.and_eq_true] at hlin
  obtain ⟨⟨hsing, hndR⟩, hndL⟩ := hlin
  rw [decide_eq_true_eq] at hndR hndL
  rw [MCFGRule.instantiate_left_side, if_neg (by rw [heps]; simp),
    instantiateSpanPath] at h
  rcases hb : r.build_span_map right with err | m
  · simp only [hb] at h
    cases h
  · simp only [hb] at h
    rcases hm : mapGroupSpans m r.left_side.string_variables
        with err | spans
    · simp only [hm] at h
      cases h
    · simp only [hm] at h
      injection h with h2
      have halign : r.right_side_aligns right = true := by
        by_contra hfalse
        rw [Bool.not_eq_true] at hfalse
        rw [MCFGRule.build_span_map, hfalse] at hb
        cases hb
      rcases build_span_map_ok r right hsing halign with ⟨m2, hb2, hkeys, hvals⟩
      rw [hb] at hb2
      injection hb2 with hm2
      subst hm2
      have hwfm : ∀ p ∈ m, p.2.1 ≤ p.2.2 := by
        intro p hp
        have : p.2 ∈ m.map Prod.snd := List.mem_map_of_mem Prod.snd hp
        rw [hvals] at this
        rw [List.mem_flatMap] at this
        rcases this with ⟨i, hi, hsp⟩
        exact hwfc i hi p.2 hsp
      rcases mapGroupSpans_ok m hwfm r.left_side.string_variables spans hm
          with ⟨hwfs, hcov⟩
      constructor
      · rw [← h2]
        exact hwfs
      · rw [← h2]
        rw [hcov, flatMap_flatten]
        have hkeysnd : (m.map Prod.fst).Nodup := by
          rw [hkeys]
          exact hndR
        have hperm : (r.left_side.string_variables.flatten).Perm
            (m.map Prod.fst) := by
          refine (List.perm_ext_iff_of_nodup hndL hkeysnd).mpr ?_
          intro v
          rw [hkeys]
          rw [MCFGRule.validate, heps, Bool.and_eq_true] at hval
          have hset := hval.2
          rw [Bool.false_or] at hset
          exact (svSetEq_iff _ _).mp hset v
        refine List.Perm.trans (hperm.flatMap_right (posOf m)) ?_
        rw [flatMap_posOf_values m hkeysnd, hvals]

/-- With every variable present in the map, the adjacency loop can fail
only with the adjacency `ValueError`. -/
theorem adjacencyChain_no_missing (m : List (SV × Span)) :
    ∀ (rest : List SV) (k : SV),
      (∃ s, lookupLast m k = some s) →
      (∀ v ∈ rest, ∃ s, lookupLast m v = some s) →
      adjacencyChain m k rest = .ok () ∨
      adjacencyChain m k rest = .error .valueError := by
  intro rest
  induction rest with
  | nil =>
    intro k _ _
    left
    rfl
  | cons k2 rest2 ih =>
    intro k hk hrest
    rcases hk with ⟨s0, hs0⟩
    rcases hrest k2 (List.mem_cons_self _ _) with ⟨s1, hs1⟩
    rw [adjacencyChain]
    simp only [Bind.bind, Except.bind, lookupE, hs0, hs1]
    by_cases hadj : s0.2 = s1.1
    · rw [if_pos hadj]
      exact ih k2 ⟨s1, hs1⟩
        (fun v hv => hrest v (List.mem_cons_of_mem _ hv))
    · rw [if_neg hadj]
      right
      rfl

/-- With a nonempty group whose variables are all present in the map, the
group-span computation can fail only with the adjacency `ValueError`. -/
theorem groupSpan_no_missing (m : List (SV × Span)) (vs : List SV)
    (hne : vs ≠ [])
    (hall : ∀ v ∈ vs, ∃ s, lookupLast m v = some s) :
    (∃ sp, groupSpan m vs = .ok sp) ∨
    groupSpan m vs = .error .valueError := by
  rcases vs with _ | ⟨k, rest⟩
  · exact absurd rfl hne
  · rw [groupSpan]
    rcases adjacencyChain_no_missing m rest k
        (hall k (List.mem_cons_self _ _))
        (fun v hv => hall v (List.mem_cons_of_mem _ hv)) with hok | hverr
    · rcases hall k (List.mem_cons_self _ _) with ⟨s0, hs0⟩
      rcases hall (rest.getLastD k) (List.getLastD_mem_cons rest k)
          with ⟨s1, hs1⟩
      left
      refine ⟨(s0.1, s1.2), ?_⟩
      simp only [Bind.bind, Except.bind, hok, lookupE, hs0, hs1]
      rfl
    · right
      simp only [Bind.bind, Except.bind, hverr]

/-- With nonempty groups over present variables, the per-group span loop can
fail only with the adjacency `ValueError`. -/
theorem mapGroupSpans_no_missing (m : List (SV × Span)) :
    ∀ gs : List (List SV), (∀ g ∈ gs, g ≠ []) →
      (∀ g ∈ gs, ∀ v ∈ g, ∃ s, lookupLast m v = some s) →
      (∃ sp, mapGroupSpans m gs = .ok sp) ∨
      mapGroupSpans m gs = .error .valueError := by
  intro gs
  induction gs with
  | nil =>
    intro _ _
    left
    exact ⟨[], rfl⟩
  | cons g gs ih =>
    intro hne hall
    rw [mapGroupSpans]
    rcases groupSpan_no_missing m g (hne g (List.mem_cons_self _ _))
        (hall g (List.mem_cons_self _ _)) with ⟨sp, hsp⟩ | hverr
    · rcases ih (fun x hx => hne x (List.mem_cons_of_mem _ hx))
          (fun x hx => hall x (List.mem_cons_of_mem _ hx))
          with ⟨rest, hrest⟩ | hverr2
      · left
        refine ⟨sp :: rest, ?_⟩
        simp only [Bind.bind, Except.bind, hsp, hrest]
        rfl
      · right
        simp only [Bind.bind, Except.bind, hsp, hverr2]
    · right
      simp only [Bind.bind, Except.bind, hverr]

/-- C5 amended: for a valid non-epsilon rule whose right-side argument
groups are single variables and whose left-side groups are nonempty, and
for children that pass the alignment check, the span map binds every
variable used on the rule's left side, and the left-side span computation
can fail only through the adjacency check (`ValueError`), never on a
missing index. -/
theorem span_map_total_for_singleton_rules (r : MCFGRule)
    (right : List MCFGRuleElementInstance)
    (hval : r.validate = true) (heps : r.is_epsilon = false)
    (hsing : singletonGroups r = true)
    (hne : r.left_side.string_variables.all (fun g => !g.isEmpty) = true)
    (halign : r.right_side_aligns right = true) :
    ∃ m, r.build_span_map right = .ok m ∧
      (∀ k ∈ r.left_side.uniqueStringVariables,
        ∃ s, lookupLast m k = some s) ∧
      ((∃ i, r.instantiate_left_side right = .ok i) ∨
        r.instantiate_left_side right = .error .valueError) := by
  rcases build_span_map_ok r right hsing halign with ⟨m, hb, hkeys, _⟩
  have hmemkeys : ∀ k ∈ r.left_side.uniqueStringVariables,
      k ∈ m.map Prod.fst := by
    intro k hk
    rw [hkeys]
    rw [MCFGRule.validate, heps, Bool.and_eq_true, Bool.false_or] at hval
    exact ((svSetEq_iff _ _).mp hval.2 k).mp hk
  have htotal : ∀ k ∈ r.left_side.uniqueStringVariables,
      ∃ s, lookupLast m k = some s :=
    fun k hk => lookupLast_isSome m k (hmemkeys k hk)
  refine ⟨m, hb, htotal, ?_⟩
  have hnempty : ∀ g ∈ r.left_side.string_variables, g ≠ [] := by
    intro g hg
    have := List.all_eq_true.mp hne g hg
    simpa using this
  have hallpres : ∀ g ∈ r.left_side.string_variables, ∀ v ∈ g,
      ∃ s, lookupLast m v = some s := by
    intro g hg v hv
    exact htotal v (List.mem_flatten.mpr ⟨g, hg, hv⟩)
  rw [MCFGRule.instantiate_left_side, if_neg (by rw [heps]; simp),
    instantiateSpanPath, hb]
  rcases mapGroupSpans_no_missing m r.left_side.string_variables hnempty
      hallpres with ⟨sp, hsp⟩ | hverr
  · left
    exact ⟨⟨r.left_side.var, sp⟩, by simp only [hsp]⟩
  · right
    simp only [hverr]

/-- Witness for the amended C5 at the rule `S(uv) -> A(u) B(v)` with
aligned children `A: (2, 3)` and `B: (3, 4)`. -/
theorem span_map_total_for_singleton_rules_witness :
    ∃ m, (⟨elem "S" [[0, 1]], [elem "A" [[0]], elem "B" [[1]]]⟩ :
        MCFGRule).build_span_map [⟨"A", [(2, 3)]⟩, ⟨"B", [(3, 4)]⟩] =
      .ok m ∧
      (∀ k ∈ (elem "S" [[0, 1]]).uniqueStringVariables,
        ∃ s, lookupLast m k = some s) ∧
      ((∃ i, (⟨elem "S" [[0, 1]],
          [elem "A" [[0]], elem "B" [[1]]]⟩ :
            MCFGRule).instantiate_left_side
          [⟨"A", [(2, 3)]⟩, ⟨"B", [(3, 4)]⟩] = .ok i) ∨
        (⟨elem "S" [[0, 1]], [elem "A" [[0]], elem "B" [[1]]]⟩ :
            MCFGRule).instantiate_left_side
          [⟨"A", [(2, 3)]⟩, ⟨"B", [(3, 4)]⟩] = .error .valueError) :=
  span_map_total_for_singleton_rules
    ⟨elem "S" [[0, 1]], [elem "A" [[0]], elem "B" [[1]]]⟩
    [⟨"A", [(2, 3)]⟩, ⟨"B", [(3, 4)]⟩]
    (by decide) (by decide) (by decide) (by decide) (by decide)

/-- The per-entry soundness invariant: the spans are well-formed and the
entry's tree has, up to reordering, exactly the tokens at the positions
covered by the entry's span tuple as its terminals. -/
def EntryOK (tokens : List String) (e : MCFGChartEntry) : Prop :=
  (∀ s ∈ e.spans, s.1 ≤ s.2) ∧
  e.to_tree.terminals.Perm
    ((coveredPositions e.spans).map (fun i => tokens.getD i ""))

/-- The terminals of a two-backpointer entry concatenate the children's
terminals. -/
theorem to_tree_two_terminals (i : MCFGRuleElementInstance)
    (r : Option MCFGRule) (x y : MCFGChartEntry) :
    (MCFGChartEntry.mk i r [x, y]).to_tree.terminals =
      x.to_tree.terminals ++ y.to_tree.terminals := by
  rw [MCFGChartEntry.to_tree, MCFGChartEntry.toTreeList,
    MCFGChartEntry.toTreeList, MCFGChartEntry.toTreeList,
    Tree.terminals, Tree.terminalsList, Tree.terminalsList,
    Tree.terminalsList, List.append_nil]

/-- Covered positions distribute over span-tuple concatenation. -/
theorem coveredPositions_append (a b : List Span) :
    coveredPositions (a ++ b) = coveredPositions a ++ coveredPositions b := by
  simp [coveredPositions]

/-- A consequence built from two invariant-satisfying children through a
successful instantiation of a valid linear binary rule satisfies the
invariant again. -/
theorem consequence_EntryOK (tokens : List String) (r : MCFGRule)
    (hval : r.validate = true) (hlin : linearRule r = true)
    (hr2 : r.right_side.length = 2)
    (x y : MCFGChartEntry) (hx : EntryOK tokens x) (hy : EntryOK tokens y)
    (i : MCFGRuleElementInstance)
    (hi : r.instantiate_left_side [x.inst, y.inst] = .ok i) :
    EntryOK tokens (MCFGChartEntry.mk i (some r) [x, y]) := by
  have heps : r.is_epsilon = false := by
    rw [MCFGRule.is_epsilon]
    rcases hrr : r.right_side with _ | _
    · rw [hrr] at hr2
      cases hr2
    · rfl
  have hwfc : ∀ j ∈ [x.inst, y.inst], ∀ s ∈ j.string_spans, s.1 ≤ s.2 := by
    intro j hj
    rcases List.mem_cons.mp hj with rfl | hj2
    · exact hx.1
    · rcases List.mem_cons.mp hj2 with rfl | hj3
      · exact hy.1
      · simp at hj3
  rcases instantiate_covered r [x.inst, y.inst] hval heps hlin hwfc i hi
      with ⟨hwf, hperm⟩
  refine ⟨hwf, ?_⟩
  rw [to_tree_two_terminals]
  refine (hx.2.append hy.2).trans ?_
  rw [← List.map_append, ← coveredPositions_append]
  have hflat : [x.inst, y.inst].flatMap
      MCFGRuleElementInstance.string_spans =
      x.spans ++ y.spans := by
    simp [MCFGChartEntry.spans]
  rw [hflat] at hperm
  exact (hperm.map (fun i => tokens.getD i "")).symm

/-- A seeded entry satisfies the invariant: its fact spans exactly the one
token position it was built from, and its tree's only terminal is that
token. -/
theorem seed_entry_OK (tokens : List String) (i : Nat) (token : String)
    (htok : tokens.getD i "" = token) (r : MCFGRule)
    (heps : r.is_epsilon = true) (lhs : MCFGRuleElementInstance)
    (hres : r.instantiate_left_side
      [⟨token, [(i, i + 1)]⟩] = .ok lhs) :
    EntryOK tokens (MCFGChartEntry.mk lhs (some r)
      [MCFGChartEntry.mk ⟨token, [(i, i + 1)]⟩ none []]) := by
  have hsp : lhs.string_spans = [(i, i + 1)] :=
    instantiate_epsilon_spans r heps _ lhs hres
  constructor
  · intro s hs
    rw [MCFGChartEntry.spans] at hs
    simp only [MCFGChartEntry.inst, hsp] at hs
    rcases List.mem_singleton.mp hs with rfl
    omega
  · rw [MCFGChartEntry.to_tree, MCFGChartEntry.toTreeList,
      MCFGChartEntry.toTreeList, MCFGChartEntry.to_tree,
      MCFGChartEntry.toTreeList, Tree.terminals, Tree.terminalsList,
      Tree.terminalsList, Tree.terminals, List.append_nil]
    rw [MCFGChartEntry.spans]
    simp only [MCFGChartEntry.inst, hsp]
    rw [coveredPositions, List.flatMap_cons, List.flatMap_nil,
      List.append_nil, spanPositions]
    simp only [Nat.add_sub_cancel_left, List.range'_one, List.map_cons,
      List.map_nil, htok]
    exact List.Perm.refl _

/-- The whole-state invariant: every committed and every pending entry
satisfies `EntryOK`. -/
def StateOK (tokens : List String) (st : ParserState) : Prop :=
  (∀ e ∈ st.chart, EntryOK tokens e) ∧ (∀ e ∈ st.agenda, EntryOK tokens e)

/-- Members of `chartAdd c e` come from `c` or are `e` itself. -/
theorem chartAdd_mem (c : Chart) (e x : MCFGChartEntry)
    (hx : x ∈ chartAdd c e) : x ∈ c ∨ x = e := by
  unfold chartAdd at hx
  split at hx
  · exact Or.inl hx
  · rcases List.mem_append.mp hx with h | h
    · exact Or.inl h
    · exact Or.inr (List.mem_singleton.mp h)

/-- `seedToken` preserves the state invariant. -/
theorem seedToken_OK (tokens : List String) (i : Nat) (token : String)
    (htok : tokens.getD i "" = token) :
    ∀ (rules : List MCFGRule) (st st2 : ParserState),
      seedToken i token rules st = .ok st2 →
      StateOK tokens st → StateOK tokens st2 := by
  intro rules
  induction rules with
  | nil =>
    intro st st2 h hst
    rw [seedToken] at h
    cases h
    exact hst
  | cons r rest ih =>
    intro st st2 h hst
    rw [seedToken] at h
    by_cases heps : r.is_epsilon
    · rw [if_pos heps] at h
      simp only [Bind.bind, Except.bind] at h
      rcases hsv : r.left_side.string_variables with _ | ⟨g, gs⟩
      · simp only [hsv] at h
        cases h
      · rcases hg : g with _ | ⟨k, ks⟩
        · simp only [hsv, hg] at h
          cases h
        · simp only [hsv, hg] at h
          by_cases hterm : k = SV.lit token
          · rw [if_pos hterm] at h
            rcases hinst : r.instantiate_left_side
                [⟨token, [(i, i + 1)]⟩] with err | lhs
            · simp only [hinst] at h
              cases h
            · simp only [hinst] at h
              refine ih _ st2 h ⟨?_, ?_⟩
              · intro e he
                rcases chartAdd_mem _ _ e he with hold | rfl
                · exact hst.1 e hold
                · exact seed_entry_OK tokens i token htok r heps lhs hinst
              · intro e he
                rcases List.mem_append.mp he with hold | hnew
                · exact hst.2 e hold
                · rcases List.mem_singleton.mp hnew with rfl
                  exact seed_entry_OK tokens i token htok r heps lhs hinst
          · rw [if_neg hterm] at h
            exact ih st st2 h hst
    · rw [if_neg heps] at h
      exact ih st st2 h hst

/-- `seedTokens` preserves the state invariant when walking a suffix of the
token sequence from its position. -/
theorem seedTokens_OK (rules : List MCFGRule) (tokens : List String) :
    ∀ (ts : List String) (i : Nat) (st st2 : ParserState),
      ts = tokens.drop i →
      seedTokens rules i ts st = .ok st2 →
      StateOK tokens st → StateOK tokens st2 := by
  intro ts
  induction ts with
  | nil =>
    intro i st st2 _ h hst
    rw [seedTokens] at h
    cases h
    exact hst
  | cons t ts ih =>
    intro i st st2 hdrop h hst
    rw [seedTokens] at h
    simp only [Bind.bind, Except.bind] at h
    rcases h1 : seedToken i t rules st with err | st1
    · simp only [h1] at h
      cases h
    · simp only [h1] at h
      have htok : tokens.getD i "" = t := by
        have h0 : (tokens.drop i).getD 0 "" = t := by
          rw [← hdrop]
          rfl
        rw [List.getD_eq_getElem?_getD] at h0 ⊢
        rw [List.getElem?_drop] at h0
        simpa using h0
      have hdrop2 : ts = tokens.drop (i + 1) := by
        have hd := List.drop_drop 1 i tokens
        rw [← hdrop] at hd
        simpa [Nat.add_comm] using hd
      exact ih (i + 1) st1 st2 hdrop2 h
        (seedToken_OK tokens i t htok rules st st1 h1 hst)

/-- One inference step preserves the invariant: every consequence of a
committed trigger against the chart satisfies `EntryOK`. -/
theorem infer_OK (tokens : List String) (rules : List MCFGRule)
    (hval : rules.all MCFGRule.validate = true)
    (hlin : rules.all linearRule = true)
    (chart : Chart) (trigger : MCFGChartEntry)
    (hchart : ∀ e ∈ chart, EntryOK tokens e)
    (htrig : EntryOK tokens trigger)
    (out : List MCFGChartEntry) (h : infer rules chart trigger = .ok out) :
    ∀ e ∈ out, EntryOK tokens e := by
  intro e he
  rcases infer_ok rules chart trigger out h e he
      with ⟨r, hr, hlen, x, y, i, hxy, hinst, rfl⟩
  have hrv : r.validate = true := List.all_eq_true.mp hval r hr
  have hrl : linearRule r = true := List.all_eq_true.mp hlin r hr
  have hx : EntryOK tokens x := by
    rcases hxy with ⟨rfl, _⟩ | ⟨hxc, _⟩
    · exact htrig
    · exact hchart x hxc
  have hy : EntryOK tokens y := by
    rcases hxy with ⟨_, hyc⟩ | ⟨_, rfl⟩
    · exact hchart y hyc
    · exact htrig
  exact consequence_EntryOK tokens r hrv hrl hlen x y hx hy i hinst

/-- The agenda loop preserves the state invariant. -/
theorem runSteps_OK (rules : List MCFGRule) (tokens : List String)
    (hval : rules.all MCFGRule.validate = true)
    (hlin : rules.all linearRule = true) :
    ∀ (n : Nat) (st st2 : ParserState), runSteps rules n st = .ok st2 →
      StateOK tokens st → StateOK tokens st2 := by
  intro n
  induction n with
  | zero =>
    intro st st2 h hst
    rw [runSteps] at h
    cases h
    exact hst
  | succ m ih =>
    intro st st2 h hst
    rcases hag : st.agenda with _ | ⟨t, rest⟩
    · rw [runSteps_of_agenda_nil rules (m + 1) st hag] at h
      cases h
      exact hst
    · rw [runSteps_cons rules m st t rest hag] at h
      have htrig : EntryOK tokens t := hst.2 t (by rw [hag]; simp)
      have hchart1 : ∀ e ∈ chartAdd st.chart t, EntryOK tokens e := by
        intro e he
        rcases chartAdd_mem _ _ e he with hold | rfl
        · exact hst.1 e hold
        · exact htrig
      rcases hinf : infer rules (chartAdd st.chart t) t with err | cons
      · rw [hinf] at h
        cases h
      · rw [hinf] at h
        refine ih _ st2 h ⟨hchart1, ?_⟩
        intro e he
        rcases List.mem_append.mp he with hold | hnew
        · exact hst.2 e (by rw [hag]; exact List.mem_cons_of_mem t hold)
        · exact infer_OK tokens rules hval hlin (chartAdd st.chart t) t
            hchart1 htrig cons hinf e hnew

/-- Deduplication only removes elements. -/
theorem dedupSeen_subset :
    ∀ (l : List Tree) (seen : List Tree) (t : Tree),
      t ∈ dedupSeen seen l → t ∈ l := by
  intro l
  induction l with
  | nil =>
    intro seen t h
    rw [dedupSeen] at h
    cases h
  | cons a l ih =>
    intro seen t h
    rw [dedupSeen] at h
    split at h
    · exact List.mem_cons_of_mem a (ih seen t h)
    · rcases List.mem_cons.mp h with rfl | h2
      · exact List.mem_cons_self _ _
      · exact List.mem_cons_of_mem a (ih _ t h2)

/-- Every returned parse tree is the tree of a committed chart entry whose
symbol is the literal `S`. -/
theorem chartParses_mem (c : Chart) (t : Tree) (h : t ∈ chartParses c) :
    ∃ e ∈ c, e.symbol = "S" ∧ t = e.to_tree := by
  rw [chartParses, dedupTrees] at h
  have h2 := dedupSeen_subset _ [] t h
  rcases List.mem_map.mp h2 with ⟨e, he, rfl⟩
  have hf := List.mem_filter.mp he
  exact ⟨e, hf.1, by simpa using hf.2, rfl⟩

/-- Reading consecutive positions with the default lookup recovers the
suffix of the token sequence. -/
theorem map_getD_range' (tokens : List String) :
    ∀ (m s : Nat), s + m = tokens.length →
      (List.range' s m).map (fun i => tokens.getD i "") =
        tokens.drop s := by
  intro m
  induction m with
  | zero =>
    intro s hs
    rw [List.range'_zero, List.map_nil]
    exact (List.drop_eq_nil_of_le (by omega)).symm
  | succ m ih =>
    intro s hs
    have hlt : s < tokens.length := by omega
    rw [show List.range' s (m + 1) = s :: List.range' (s + 1) m by
      simp [List.range'_succ]]
    rw [List.map_cons, ih (s + 1) (by omega)]
    rw [List.drop_eq_getElem_cons hlt, List.getD_eq_getElem tokens "" hlt]

/-- A span tuple covering the whole input reads back the token sequence. -/
theorem covered_full_input (tokens : List String) :
    (coveredPositions [(0, tokens.length)]).map
      (fun i => tokens.getD i "") = tokens := by
  rw [coveredPositions, List.flatMap_cons, List.flatMap_nil,
    List.append_nil, spanPositions]
  simp only [Nat.sub_zero]
  rw [map_getD_range' tokens tokens.length 0 (by omega), List.drop_zero]

/-- C1 amended: over a valid grammar whose rules are linear (epsilon, or
with single-variable right-side groups and no repeated variable on either
side), every tree returned by a completing `parse` call on a fresh parser
is materialized from a committed chart fact with symbol `S`, and its
terminals are a permutation of the tokens at the positions covered by that
fact's span tuple; when the fact spans exactly the whole input the
terminals are a permutation of the input. -/
theorem parse_trees_terminals_perm (g : MCFGGrammar) (tokens : List String)
    (fuel : Nat) (ts : List Tree) (ch : Chart)
    (hval : g.validate = true)
    (hlin : g.rules.all linearRule = true)
    (hres : parseWith g [] tokens fuel = .ok (some (ts, ch))) :
    ∀ t ∈ ts, ∃ e ∈ ch, e.symbol = "S" ∧ t = e.to_tree ∧
      t.terminals.Perm ((coveredPositions e.spans).map
        (fun i => tokens.getD i "")) ∧
      (e.spans = [(0, tokens.length)] → t.terminals.Perm tokens) := by
  have hallval : g.rules.all MCFGRule.validate = true := by
    rw [MCFGGrammar.validate, Bool.and_eq_true, Bool.and_eq_true] at hval
    exact hval.2
  rw [parseWith] at hres
  simp only [Bind.bind, Except.bind] at hres
  rcases hseed : seedTokens g.rules 0 tokens ⟨[], []⟩ with err | st0
  · simp only [hseed] at hres
    cases hres
  · simp only [hseed] at hres
    rcases hrun : runSteps g.rules fuel st0 with err | stF
    · simp only [hrun] at hres
      cases hres
    · simp only [hrun] at hres
      by_cases hemp : stF.agenda.isEmpty
      · rw [if_pos hemp] at hres
        injection hres with h1
        injection h1 with h2
        have hts : chartParses stF.chart = ts := congrArg Prod.fst h2
        have hch : stF.chart = ch := congrArg Prod.snd h2
        have hst0 : StateOK tokens st0 :=
          seedTokens_OK g.rules tokens tokens 0 ⟨[], []⟩ st0
            (by rw [List.drop_zero]) hseed ⟨by simp, by simp⟩
        have hstF := runSteps_OK g.rules tokens hallval hlin fuel st0 stF
          hrun hst0
        intro t ht
        rw [← hts] at ht
        rcases chartParses_mem stF.chart t ht with ⟨e, he, hsym, rfl⟩
        have hE := hstF.1 e he
        refine ⟨e, hch ▸ he, hsym, rfl, hE.2, ?_⟩
        intro hfull
        have hp := hE.2
        rw [hfull, covered_full_input] at hp
        exact hp
      · rw [if_neg hemp] at hres
        injection hres with h1
        cases h1

/-- Witness for the amended C1 at the grammar `gS` on tokens `[a, b]`. -/
theorem parse_trees_terminals_perm_witness :
    gS.validate = true ∧ gS.rules.all linearRule = true ∧
    parseWith gS [] ["a", "b"] 30 =
      .ok (some ((parseTrees gS [] ["a", "b"] 30).getD [],
        (parseChart gS [] ["a", "b"] 30).getD [])) ∧
    (∀ t ∈ (parseTrees gS [] ["a", "b"] 30).getD [],
      ∃ e ∈ (parseChart gS [] ["a", "b"] 30).getD [],
        e.symbol = "S" ∧ t = e.to_tree ∧
        t.terminals.Perm ((coveredPositions e.spans).map
          (fun i => ["a", "b"].getD i "")) ∧
        (e.spans = [(0, (["a", "b"] : List String).length)] →
          t.terminals.Perm ["a", "b"])) :=
  ⟨by decide, by decide, by decide,
    parse_trees_terminals_perm gS ["a", "b"] 30 _ _ (by decide) (by decide)
      (by decide)⟩

end MCFG
